import Mathlib

/-!
The translation key resolver of `pkg/translations/translations.go`.

A shallow embedding of `TranslationHelper`, `NullTranslationHelper` and
`DumpTranslationKeyMap`, together with the parts of the libraries they call
(`strings`, `os`, `encoding/json`, `spf13/viper`, `spf13/cast`) that decide
what the resolver returns.

Conventions.
* A Go `string` is a sequence of bytes. A string that may hold bytes which are
  not valid UTF-8 is a `RawString`: the runes and the invalid bytes that
  `utf8.DecodeRuneInString` splits it into. A string that is valid UTF-8 by
  construction (a normalized key, the name of a variable or of a file, JSON
  text that `encoding/json` has written) is a `GoString`, the list of its runes.
* The key of a call is given by its runes, as a `range` over it yields them (an
  invalid byte yields U+FFFD): the resolution function uses its key only
  through `strings.ReplaceAll` and `strings.ToUpper`, which see nothing else.
* A Go `map[string]T` is an association list with pairwise distinct keys, read
  with `mapGet` and written with `mapSet`; a map that may be `nil` is an `Option`.
* The process environment and the working directory are arguments: the
  environment of every call of the resolution function, so that it may change
  between two calls, the directory of `TranslationHelper`.
* The Unicode case tables above ASCII and the JSON decoder that viper calls are
  parameters (`GoLib`): what is proved holds whatever they are.
* A JSON number that viper has decoded is carried as the text `cast.ToString`
  prints for it.
-/

namespace Translations

/-- A Go `string` that is valid UTF-8, as the list of its runes. -/
abbrev GoString := List Char

/-- One step of `utf8.DecodeRuneInString` through a Go `string`: a rune that is
encoded validly, or one byte that is not part of a valid encoding. -/
inductive StringPart where
  | rune (r : Char)
  | invalid (byte : Nat)
  deriving DecidableEq

/-- A Go `string`, whatever its bytes: the runes and invalid bytes it is made of. -/
abbrev RawString := List StringPart

/-- A valid string as a `RawString`. -/
def rawOf (s : GoString) : RawString :=
  s.map .rune

/-- Whether the part is a rune. -/
def StringPart.isRune : StringPart → Bool
  | .rune _ => true
  | .invalid _ => false

/-- Function `utf8.ValidString`. -/
def validUTF8 (s : RawString) : Bool :=
  s.all StringPart.isRune

/-- The rune a `range` over the string yields for the part: `utf8.RuneError`
(U+FFFD) for an invalid byte. -/
def StringPart.toRune : StringPart → Char
  | .rune r => r
  | .invalid _ => '\uFFFD'

/-- The runes of a string, `[]rune(s)`: every invalid byte gives U+FFFD. -/
def runesOf (s : RawString) : GoString :=
  s.map StringPart.toRune

/-- Values of Go's `any` as they occur in viper's maps: what `encoding/json`
decodes into an `any`, and the strings `SetDefault` and the environment put
there; `null` stands for Go's `nil`. A number (a `float64`) is carried as
text: in viper's maps the text that `cast.ToString` prints for it, in a JSON
text that is read back the literal. -/
inductive Value where
  | null
  | str (s : RawString)
  | bool (b : Bool)
  | num (text : GoString)
  | arr (items : List Value)
  | obj (fields : List (GoString × Value))

/-- Go's `val == nil` on an `any`. -/
def Value.isNil : Value → Bool
  | .null => true
  | _ => false

/-- The library behaviour the development takes as given: the Unicode case
tables for runes above `unicode.MaxASCII` (`unicode.To(UpperCase, r)` and
`unicode.To(LowerCase, r)`), and `json.Unmarshal` of the bytes of a file into a
`map[string]any` (`none` when it returns an error). The entries of the decoded
map are listed in the order in which the `range` of `insensitiviseMap` visits
them, which Go leaves open; a number is given as the text `cast.ToString`
prints for the `float64` decoded. -/
structure GoLib where
  upper : Char → Char
  lower : Char → Char
  jsonUnmarshal : RawString → Option (List (GoString × Value))

/-! ## Maps -/

/-- Map read `m[k]`: the value and whether the key is present. -/
def mapGet {α : Type} : List (GoString × α) → GoString → Option α
  | [], _ => none
  | (k', v) :: rest, k => if k' = k then some v else mapGet rest k

/-- Map write `m[k] = v`. -/
def mapSet {α : Type} : List (GoString × α) → GoString → α → List (GoString × α)
  | [], k, v => [(k, v)]
  | (k', v') :: rest, k, v =>
    if k' = k then (k, v) :: rest else (k', v') :: mapSet rest k v

/-- Map removal `delete(m, k)`. -/
def mapDelete {α : Type} : List (GoString × α) → GoString → List (GoString × α)
  | [], _ => []
  | (k', v') :: rest, k =>
    if k' = k then mapDelete rest k else (k', v') :: mapDelete rest k

/-- The keys of a map. -/
def mapKeys {α : Type} (m : List (GoString × α)) : List GoString :=
  m.map Prod.fst

/-! ## `strings` and `unicode` -/

/-- The rune is at most `unicode.MaxASCII`. -/
def isASCII (r : Char) : Bool :=
  decide (r.toNat ≤ 0x7F)

/-- Function `unicode.ToUpper` on a rune up to `MaxASCII`: `r -= 'a' - 'A'` for a
lower-case letter. -/
def asciiUpper (r : Char) : Char :=
  if 'a' ≤ r ∧ r ≤ 'z' then Char.ofNat (r.toNat - 32) else r

/-- Function `unicode.ToLower` on a rune up to `MaxASCII`: `r += 'a' - 'A'` for an
upper-case letter. -/
def asciiLower (r : Char) : Char :=
  if 'A' ≤ r ∧ r ≤ 'Z' then Char.ofNat (r.toNat + 32) else r

/-- Function `unicode.ToUpper`: ASCII letters by arithmetic, other runes by table. -/
def unicodeToUpper (L : GoLib) (r : Char) : Char :=
  if isASCII r then asciiUpper r else L.upper r

/-- Function `unicode.ToLower`: ASCII letters by arithmetic, other runes by table. -/
def unicodeToLower (L : GoLib) (r : Char) : Char :=
  if isASCII r then asciiLower r else L.lower r

/-- Function `strings.ToUpper`. -/
def stringsToUpper (L : GoLib) (s : GoString) : GoString :=
  s.map (unicodeToUpper L)

/-- Function `strings.ToLower`. -/
def stringsToLower (L : GoLib) (s : GoString) : GoString :=
  s.map (unicodeToLower L)

/-- Replacement of every `-` by `_`: `strings.ReplaceAll(s, "-", "_")`, and
also `strings.NewReplacer("-", "_").Replace(s)`. -/
def replaceHyphens (s : GoString) : GoString :=
  s.map fun c => if c = '-' then '_' else c

/-- Function `strings.Split(s, ".")`. -/
def splitDot : GoString → List GoString
  | [] => [[]]
  | c :: rest =>
    if c = '.' then [] :: splitDot rest
    else
      match splitDot rest with
      | [] => [[c]]
      | seg :: segs => (c :: seg) :: segs

/-- Function `strings.Join(segs, ".")`. -/
def joinDot : List GoString → GoString
  | [] => []
  | [seg] => seg
  | seg :: segs => seg ++ '.' :: joinDot segs

/-- Function `strconv.Atoi` for an index: an optional `+` and decimal digits.
A `-` is not read: no path segment holds one, every `-` of a key being
replaced before viper sees the key. -/
def atoiDigits : GoString → Nat → Option Nat
  | [], acc => some acc
  | c :: rest, acc =>
    if '0' ≤ c ∧ c ≤ '9' then atoiDigits rest (10 * acc + (c.toNat - 48)) else none

/-- See `atoiDigits`. -/
def atoi : GoString → Option Nat
  | [] => none
  | c :: rest =>
    if c = '+' then (if rest = [] then none else atoiDigits rest 0)
    else atoiDigits (c :: rest) 0

/-! ## `spf13/cast` -/

/-- Function `cast.ToString` on the values viper's maps hold: a string is returned
as it is, a number as `strconv.FormatFloat(f, 'f', -1, 64)` prints it (the
text the value carries); a slice or a map cannot be cast and gives the empty
string. -/
def castToString : Value → RawString
  | .null => []
  | .str s => s
  | .bool true => rawOf "true".toList
  | .bool false => rawOf "false".toList
  | .num text => rawOf text
  | .arr _ => []
  | .obj _ => []

/-! ## `spf13/viper` -/

/-- The process environment: `os.LookupEnv`. The value of a variable is any
sequence of bytes. -/
abbrev Env := GoString → Option RawString

/-- The state of the `*viper.Viper` the helper builds: the loaded configuration
and the defaults. The remaining settings are fixed by `TranslationHelper`:
automatic env on, env prefix `GITHUB_MCP`, env key replacer `-` to `_`, key
delimiter `.`, no alias, override, flag, bound env or key/value store. -/
structure Viper where
  config : List (GoString × Value)
  defaults : List (GoString × Value)

/-- Method `getEnv`: the replacer is applied to the name, and an empty value counts
as unset (`allowEmptyEnv` is false). -/
def getEnv (env : Env) (key : GoString) : Option RawString :=
  match env (replaceHyphens key) with
  | some val => if val = [] then none else some val
  | none => none

/-- Method `mergeWithEnvPrefix`, with the prefix `GITHUB_MCP`:
`strings.ToUpper(v.envPrefix + "_" + in)`. -/
def mergeWithEnvPrefix (L : GoLib) (s : GoString) : GoString :=
  stringsToUpper L ("GITHUB_MCP".toList ++ '_' :: s)

/-- Method `searchMap`: the value at a path of nested maps, `nil` when there is
none. -/
def searchMap : List (GoString × Value) → List GoString → Value
  | source, [] => .obj source
  | source, [k] =>
    match mapGet source k with
    | some next => next
    | none => .null
  | source, k :: rest =>
    match mapGet source k with
    | some (.obj next) => searchMap next rest
    | _ => .null

/-- Function `deepSearch` followed by the assignment of `SetDefault`: the map
reached through `path` (an intermediate key that is absent or not a map gets
a fresh map) receives `value` under `lastKey`. -/
def deepSet : List (GoString × Value) → List GoString → GoString → Value →
    List (GoString × Value)
  | m, [], lastKey, value => mapSet m lastKey value
  | m, k :: rest, lastKey, value =>
    match mapGet m k with
    | some (.obj m3) => mapSet m k (.obj (deepSet m3 rest lastKey value))
    | _ => mapSet m k (.obj (deepSet [] rest lastKey value))

/-- Method `isPathShadowedInDeep`, its loop run over the given prefix lengths. -/
def isPathShadowedInDeepFrom (path : List GoString) (m : List (GoString × Value)) :
    List Nat → GoString
  | [] => []
  | i :: rest =>
    match searchMap m (path.take i) with
    | .null => []
    | .obj _ => isPathShadowedInDeepFrom path m rest
    | _ => joinDot (path.take i)

/-- Method `isPathShadowedInDeep`: the proper prefix of `path` that holds a plain
value in `m`, or the empty string. -/
def isPathShadowedInDeep (path : List GoString) (m : List (GoString × Value)) : GoString :=
  isPathShadowedInDeepFrom path m (List.range' 1 (path.length - 1))

/-- Method `isPathShadowedInAutoEnv`: the first proper prefix of `path` that has a
value in the environment, or the empty string. -/
def isPathShadowedInAutoEnv (L : GoLib) (env : Env) (path : List GoString) : GoString :=
  match (List.range' 1 (path.length - 1)).find?
      (fun i => (getEnv env (mergeWithEnvPrefix L (joinDot (path.take i)))).isSome) with
  | some i => joinDot (path.take i)
  | none => []

/-- The first value that is not `nil` among `f i`, for `i` in the given order. -/
def firstNonNil (f : Nat → Value) : List Nat → Value
  | [] => .null
  | i :: rest => if (f i).isNil then firstNonNil f rest else f i

/-- Method `searchIndexableWithPathPrefixes` with `searchMapWithPathPrefixes` and
`searchSliceWithPathPrefixes`: the prefixes of the path are tried as keys,
longest first, and the search goes on below the value found. `fuel` bounds the
recursion; the length of the path is enough. -/
def searchIndexableWithPathPrefixes (L : GoLib) : Nat → Value → List GoString → Value
  | _, source, [] => source
  | 0, _, _ :: _ => .null
  | fuel + 1, source, p :: ps =>
    let path := p :: ps
    firstNonNil
      (fun i =>
        let prefixKey := stringsToLower L (joinDot (path.take i))
        let next : Option Value :=
          match source with
          | .obj sourceMap => mapGet sourceMap prefixKey
          | .arr sourceSlice =>
            match atoi prefixKey with
            | some index => sourceSlice.get? index
            | none => none
          | _ => none
        match next with
        | none => .null
        | some next =>
          if i = path.length then next
          else
            match next with
            | .obj _ => searchIndexableWithPathPrefixes L fuel next (path.drop i)
            | .arr _ => searchIndexableWithPathPrefixes L fuel next (path.drop i)
            | _ => .null)
      ((List.range' 1 path.length).reverse)

/-- Method `find` on the lower-cased key, in viper's order of precedence: the
environment, the configuration file, the defaults. -/
def Viper.find (L : GoLib) (env : Env) (v : Viper) (lcaseKey : GoString) : Value :=
  let path := splitDot lcaseKey
  let nested := decide (path.length > 1)
  match getEnv env (mergeWithEnvPrefix L lcaseKey) with
  | some val => .str val
  | none =>
    if nested ∧ isPathShadowedInAutoEnv L env path ≠ [] then .null
    else
      let val := searchIndexableWithPathPrefixes L path.length (.obj v.config) path
      if !val.isNil then val
      else if nested ∧ isPathShadowedInDeep path v.config ≠ [] then .null
      else searchMap v.defaults path

/-- Method `GetString`: `cast.ToString(v.Get(key))`, where `Get` lower-cases the key. -/
def Viper.GetString (L : GoLib) (env : Env) (v : Viper) (key : GoString) : RawString :=
  castToString (v.find L env (stringsToLower L key))

/-- Method `SetDefault` with a string value. -/
def Viper.SetDefault (L : GoLib) (v : Viper) (key : GoString) (value : RawString) : Viper :=
  let path := splitDot (stringsToLower L key)
  let lastKey := stringsToLower L (path.getLastD [])
  { v with defaults := deepSet v.defaults path.dropLast lastKey (.str value) }

/-! ## `translations.go` -/

/-- Function `NullTranslationHelper` (lines 15 to 17). -/
def NullTranslationHelper (_key : GoString) (defaultValue : RawString) : RawString :=
  defaultValue

/-- What the two closures returned by `TranslationHelper` share: the map
`translationKeyMap` and the viper instance `v`. -/
structure Resolver where
  translationKeyMap : List (GoString × RawString)
  v : Viper

/-- The key as the resolution function normalizes it:
`strings.ToUpper(strings.ReplaceAll(key, "-", "_"))`. -/
def normalizedKey (L : GoLib) (key : GoString) : GoString :=
  stringsToUpper L (replaceHyphens key)

/-- The resolution function, first closure returned by `TranslationHelper` (lines
41 to 53): the value returned and the state it leaves. -/
def Resolver.resolve (L : GoLib) (env : Env) (r : Resolver) (key : GoString)
    (defaultValue : RawString) : RawString × Resolver :=
  let nk := normalizedKey L key
  match mapGet r.translationKeyMap nk with
  | some value => (value, r)
  | none =>
    let v := r.v.SetDefault L nk defaultValue
    let resolved := v.GetString L env nk
    (resolved, { translationKeyMap := mapSet r.translationKeyMap nk resolved, v := v })

/-! ### Loading the configuration file -/

mutual
/-- Function `copyAndInsensitiviseMap`, the entries visited in list order and
put into the new map `nm`: keys are lower-cased, nested maps copied likewise. -/
def copyAndInsensitiviseMap (L : GoLib) :
    List (GoString × Value) → List (GoString × Value) → List (GoString × Value)
  | [], nm => nm
  | (key, val) :: rest, nm =>
    copyAndInsensitiviseMap L rest (mapSet nm (stringsToLower L key) (copyVal L val))
/-- The `switch` in the loop of `copyAndInsensitiviseMap`. -/
def copyVal (L : GoLib) : Value → Value
  | .obj m => .obj (copyAndInsensitiviseMap L m [])
  | v => v
end

mutual
/-- Function `insensitiveArray`. -/
def insensitiveArray (L : GoLib) : List Value → List Value
  | [] => []
  | val :: rest => insensitiveArrayVal L val :: insensitiveArray L rest
/-- The `switch` in the loop of `insensitiveArray`. -/
def insensitiveArrayVal (L : GoLib) : Value → Value
  | .obj m => .obj (copyAndInsensitiviseMap L m [])
  | .arr a => .arr (insensitiveArray L a)
  | v => v
end

/-- Function `insensitiviseVal`. -/
def insensitiviseVal (L : GoLib) : Value → Value
  | .obj m => .obj (copyAndInsensitiviseMap L m [])
  | .arr a => .arr (insensitiveArray L a)
  | v => v

/-- The loop of `insensitiviseMap` over the entries still to visit, `m` being the
map as it stands. Go leaves the order of a `range` over a map open; here the
entries are visited in list order. -/
def insensitiviseMapFrom (L : GoLib) :
    List (GoString × Value) → List (GoString × Value) → List (GoString × Value)
  | [], m => m
  | (key, _) :: rest, m =>
    match mapGet m key with
    | none => insensitiviseMapFrom L rest m
    | some val =>
      let val := insensitiviseVal L val
      let lower := stringsToLower L key
      let m := if key ≠ lower then mapDelete m key else m
      insensitiviseMapFrom L rest (mapSet m lower val)

/-- Function `insensitiviseMap`, which viper runs on a decoded configuration. -/
def insensitiviseMap (L : GoLib) (m : List (GoString × Value)) : List (GoString × Value) :=
  insensitiviseMapFrom L m m

/-- What `os.Stat` and `os.ReadFile` find under one name of the working directory:
no file (nothing of that name, or a directory), a file that cannot be read,
or a file and the bytes it holds. -/
inductive ConfigFile where
  | notFound
  | unreadable
  | content (text : RawString)
  deriving DecidableEq

/-- The working directory, by file name. -/
abbrev WorkDir := GoString → ConfigFile

/-- The errors of `ReadInConfig`. -/
inductive ReadError where
  | configFileNotFound
  | readFailed
  | configParse

/-- Variable `viper.SupportedExts`. -/
def SupportedExts : List GoString :=
  ["json".toList, "toml".toList, "yaml".toList, "yml".toList, "properties".toList,
    "props".toList, "prop".toList, "hcl".toList, "tfvars".toList, "dotenv".toList,
    "env".toList, "ini".toList]

/-- The name given to `SetConfigName` (line 24). -/
def configName : GoString :=
  "github-mcp-server-config".toList

/-- Function `exists` of viper: there is a file of that name, and it is not a
directory. -/
def fileExists (dir : WorkDir) (name : GoString) : Bool :=
  match dir name with
  | .notFound => false
  | _ => true

/-- Method `searchInPath` in the one configuration path, the working directory:
the config name with each supported extension in turn, then (a config type
being set) the config name alone; the first file that exists is taken. -/
def Viper.searchInPath (dir : WorkDir) : Option GoString :=
  match SupportedExts.find? (fun ext => fileExists dir (configName ++ '.' :: ext)) with
  | some ext => some (configName ++ '.' :: ext)
  | none => if fileExists dir configName then some configName else none

/-- Function `viper.New`. -/
def Viper.New : Viper :=
  { config := [], defaults := [] }

/-- Method `ReadInConfig`: the file found is read and, the config type being
`json` whatever its extension, decoded as JSON; the configuration is replaced
only when a file was found, read and decoded. -/
def Viper.ReadInConfig (L : GoLib) (v : Viper) (dir : WorkDir) : Viper × Option ReadError :=
  match Viper.searchInPath dir with
  | none => (v, some .configFileNotFound)
  | some filename =>
    match dir filename with
    | .content text =>
      match L.jsonUnmarshal text with
      | none => (v, some .configParse)
      | some config => ({ v with config := insensitiviseMap L config }, none)
    | _ => (v, some .readFailed)

/-- Function `TranslationHelper` (lines 19 to 39): the state shared by the two
closures it returns, and the lines it has logged. -/
def TranslationHelper (L : GoLib) (dir : WorkDir) : Resolver × List String :=
  let translationKeyMap : List (GoString × RawString) := []
  let (v, err) := Viper.New.ReadInConfig L dir
  let log :=
    match err with
    | none => []
    | some .configFileNotFound => []
    | some _ => ["Could not read JSON config"]
  ({ translationKeyMap := translationKeyMap, v := v }, log)

/-! ## `encoding/json` -/

/-- The digit of `n` in `"0123456789abcdef"`. -/
def hexDigit (n : Nat) : Char :=
  if n < 10 then Char.ofNat (48 + n) else Char.ofNat (87 + n)

/-- How `json.Marshal` writes one rune of a string (HTML escaping on): the
quote and the backslash are escaped, control characters, `<`, `>`, `&`,
U+2028 and U+2029 are written as `\u` escapes. -/
def encodeRune (c : Char) : GoString :=
  if c = '"' then ['\\', '"']
  else if c = '\\' then ['\\', '\\']
  else if c = '\x08' then ['\\', 'b']
  else if c = '\x0c' then ['\\', 'f']
  else if c = '\n' then ['\\', 'n']
  else if c = '\r' then ['\\', 'r']
  else if c = '\t' then ['\\', 't']
  else if c.toNat < 0x20 ∨ c = '<' ∨ c = '>' ∨ c = '&' then
    ['\\', 'u', '0', '0', hexDigit (c.toNat / 16), hexDigit (c.toNat % 16)]
  else if c = '\u2028' ∨ c = '\u2029' then
    ['\\', 'u', '2', '0', '2', hexDigit (c.toNat % 16)]
  else [c]

/-- How `json.Marshal` writes one part of a string: a byte that is not valid
UTF-8 is written as the escape of U+FFFD. -/
def encodePart : StringPart → GoString
  | .rune c => encodeRune c
  | .invalid _ => ['\\', 'u', 'f', 'f', 'f', 'd']

/-- A string as `json.Marshal` writes it. -/
def encodeString (s : RawString) : GoString :=
  '"' :: (s.flatMap encodePart ++ ['"'])

/-- One member of the indented object: `"key": "value"`. -/
def encodeMember (kv : RawString × RawString) : GoString :=
  encodeString kv.1 ++ ':' :: ' ' :: encodeString kv.2

/-- The members of the indented object, each on a line of its own after two
blanks, a comma between two of them. -/
def encodeMembers : List (RawString × RawString) → GoString
  | [] => []
  | [kv] => encodeMember kv
  | kv :: rest => encodeMember kv ++ ',' :: '\n' :: ' ' :: ' ' :: encodeMembers rest

/-- The bytes of a rune in UTF-8: `utf8.AppendRune`. -/
def utf8Bytes (c : Char) : List Nat :=
  if c.toNat < 0x80 then [c.toNat]
  else if c.toNat < 0x800 then [0xC0 + c.toNat / 0x40, 0x80 + c.toNat % 0x40]
  else if c.toNat < 0x10000 then
    [0xE0 + c.toNat / 0x1000, 0x80 + c.toNat / 0x40 % 0x40, 0x80 + c.toNat % 0x40]
  else
    [0xF0 + c.toNat / 0x40000, 0x80 + c.toNat / 0x1000 % 0x40, 0x80 + c.toNat / 0x40 % 0x40,
      0x80 + c.toNat % 0x40]

/-- The bytes of a string. -/
def rawBytes (s : RawString) : List Nat :=
  s.flatMap fun p =>
    match p with
    | .rune c => utf8Bytes c
    | .invalid byte => [byte]

/-- The entries of a map in the order `json.Marshal` writes them: sorted by key,
the keys compared byte by byte. -/
def sortedEntries (m : List (RawString × RawString)) : List (RawString × RawString) :=
  m.insertionSort (fun a b => rawBytes a.1 ≤ rawBytes b.1)

/-- Function `json.MarshalIndent(m, "", "  ")` on a `map[string]string`, which is
`none` when the map is `nil`; it has no error on such a map. A `nil` map is
written as `null`, a map without entries as an empty object. -/
def jsonMarshalIndent (m : Option (List (RawString × RawString))) : Except String GoString :=
  match m with
  | none => .ok "null".toList
  | some m =>
    match sortedEntries m with
    | [] => .ok ['\x7b', '\x7d']
    | entries =>
      .ok ('\x7b' :: '\n' :: ' ' :: ' ' :: (encodeMembers entries ++ ['\n', '\x7d']))

/-! ### Reading JSON (RFC 8259) -/

/-- Whether the rune is JSON whitespace. -/
def isWs (c : Char) : Bool :=
  c = ' ' ∨ c = '\t' ∨ c = '\n' ∨ c = '\r'

/-- The text after its leading whitespace. -/
def skipWs : GoString → GoString
  | [] => []
  | c :: rest => if isWs c then skipWs rest else c :: rest

/-- The value of a hexadecimal digit. -/
def hexVal (c : Char) : Option Nat :=
  if '0' ≤ c ∧ c ≤ '9' then some (c.toNat - 48)
  else if 'a' ≤ c ∧ c ≤ 'f' then some (c.toNat - 87)
  else if 'A' ≤ c ∧ c ≤ 'F' then some (c.toNat - 55)
  else none

/-- The number four hexadecimal digits write. -/
def hex4 (a b c d : Char) : Option Nat :=
  match hexVal a, hexVal b, hexVal c, hexVal d with
  | some x, some y, some z, some w => some (((x * 16 + y) * 16 + z) * 16 + w)
  | _, _, _, _ => none

/-- The low surrogate that an escape at the head of the text writes, if any. -/
def lowSurrogate : GoString → Option Nat
  | c1 :: c2 :: a :: b :: c :: d :: _ =>
    if c1 = '\\' ∧ c2 = 'u' then
      match hex4 a b c d with
      | some n => if 0xDC00 ≤ n ∧ n ≤ 0xDFFF then some n else none
      | none => none
    else none
  | _ => none

/-- The escape `\uXXXX`, from its four digits on: the rune it writes and how
many runes of the text after the backslash it takes. A surrogate pair of
escapes writes one rune, a surrogate without its partner U+FFFD. -/
def decodeUnicodeEscape : GoString → Option (Char × Nat)
  | a :: b :: c :: d :: rest =>
    match hex4 a b c d with
    | none => none
    | some n =>
      if 0xD800 ≤ n ∧ n ≤ 0xDFFF then
        match (if n ≤ 0xDBFF then lowSurrogate rest else none) with
        | some n2 => some (Char.ofNat (0x10000 + (n - 0xD800) * 0x400 + (n2 - 0xDC00)), 11)
        | none => some ('\uFFFD', 5)
      else some (Char.ofNat n, 5)
  | _ => none

/-- The escape that follows a backslash: the rune it writes and how many runes
of the text it takes. -/
def decodeEscape : GoString → Option (Char × Nat)
  | [] => none
  | e :: rest =>
    if e = 'u' then decodeUnicodeEscape rest
    else if e = '"' then some ('"', 1)
    else if e = '\\' then some ('\\', 1)
    else if e = '/' then some ('/', 1)
    else if e = 'b' then some ('\x08', 1)
    else if e = 'f' then some ('\x0c', 1)
    else if e = 'n' then some ('\n', 1)
    else if e = 'r' then some ('\r', 1)
    else if e = 't' then some ('\t', 1)
    else none

/-- The text of a string literal after its opening quote: the string it writes
and what follows its closing quote. The first `skip` runes belong to an
escape already read. -/
def parseStringBody : Nat → GoString → Option (GoString × GoString)
  | _, [] => none
  | skip + 1, _ :: rest => parseStringBody skip rest
  | 0, c :: rest =>
    if c = '"' then some ([], rest)
    else if c = '\\' then
      match decodeEscape rest with
      | none => none
      | some (r, taken) => (parseStringBody taken rest).map fun p => (r :: p.1, p.2)
    else if c.toNat < 0x20 then none
    else (parseStringBody 0 rest).map fun p => (c :: p.1, p.2)

/-- A string literal at the head of the text. -/
def parseString : GoString → Option (GoString × GoString)
  | [] => none
  | c :: rest => if c = '"' then parseStringBody 0 rest else none

/-- The digits at the head of the text, and what follows them. -/
def spanDigits : GoString → GoString × GoString
  | [] => ([], [])
  | c :: rest =>
    if '0' ≤ c ∧ c ≤ '9' then ((spanDigits rest).1.cons c, (spanDigits rest).2)
    else ([], c :: rest)

/-- A number at the head of the text: its literal and what follows it. -/
def parseNumber (input : GoString) : Option (GoString × GoString) :=
  let (sign, s1) : GoString × GoString :=
    match input with
    | '-' :: rest => (['-'], rest)
    | _ => ([], input)
  let (int, s2) := spanDigits s1
  if int = [] ∨ (int.length > 1 ∧ int.head? = some '0') then none
  else
    let frac : Option (GoString × GoString) :=
      match s2 with
      | '.' :: rest =>
        let (ds, s3) := spanDigits rest
        if ds = [] then none else some ('.' :: ds, s3)
      | _ => some ([], s2)
    match frac with
    | none => none
    | some (fr, s3) =>
      let exp : Option (GoString × GoString) :=
        match s3 with
        | e :: rest =>
          if e = 'e' ∨ e = 'E' then
            let (sg, s4) : GoString × GoString :=
              match rest with
              | '+' :: r => (['+'], r)
              | '-' :: r => (['-'], r)
              | _ => ([], rest)
            let (ds, s5) := spanDigits s4
            if ds = [] then none else some (e :: sg ++ ds, s5)
          else some ([], s3)
        | [] => some ([], s3)
      match exp with
      | none => none
      | some (ex, s4) => some (sign ++ int ++ fr ++ ex, s4)

/-- The text without the given word at its head, when it starts with it. -/
def dropWord : GoString → GoString → Option GoString
  | [], s => some s
  | _ :: _, [] => none
  | w :: ws, c :: rest => if w = c then dropWord ws rest else none

mutual
/-- A JSON value at the head of the text, after whitespace: the value and what
follows it. `fuel` bounds the number of nested calls. -/
def parseValue : Nat → GoString → Option (Value × GoString)
  | 0, _ => none
  | fuel + 1, input =>
    match skipWs input with
    | [] => none
    | c :: rest =>
      if c = '\x7b' then
        match skipWs rest with
        | [] => none
        | c2 :: rest2 =>
          if c2 = '\x7d' then some (.obj [], rest2) else parseMembers fuel (c2 :: rest2) []
      else if c = '[' then
        match skipWs rest with
        | [] => none
        | c2 :: rest2 =>
          if c2 = ']' then some (.arr [], rest2) else parseElements fuel (c2 :: rest2) []
      else if c = '"' then
        (parseStringBody 0 rest).map fun p => (.str (rawOf p.1), p.2)
      else if c = 't' then (dropWord "rue".toList rest).map fun r => (.bool true, r)
      else if c = 'f' then (dropWord "alse".toList rest).map fun r => (.bool false, r)
      else if c = 'n' then (dropWord "ull".toList rest).map fun r => (.null, r)
      else (parseNumber (c :: rest)).map fun p => (.num p.1, p.2)
/-- The members of an object from the name of the next one on, `acc` being the
members read so far; a name read twice keeps its last value. -/
def parseMembers : Nat → GoString → List (GoString × Value) → Option (Value × GoString)
  | 0, _, _ => none
  | fuel + 1, input, acc =>
    match parseString (skipWs input) with
    | none => none
    | some (name, afterName) =>
      match skipWs afterName with
      | [] => none
      | c :: afterColon =>
        if c = ':' then
          match parseValue fuel afterColon with
          | none => none
          | some (val, afterVal) =>
            match skipWs afterVal with
            | [] => none
            | c2 :: rest =>
              if c2 = ',' then parseMembers fuel rest (mapSet acc name val)
              else if c2 = '\x7d' then some (.obj (mapSet acc name val), rest)
              else none
        else none
/-- The elements of an array from the next one on, `acc` being the elements read
so far. -/
def parseElements : Nat → GoString → List Value → Option (Value × GoString)
  | 0, _, _ => none
  | fuel + 1, input, acc =>
    match parseValue fuel input with
    | none => none
    | some (val, afterVal) =>
      match skipWs afterVal with
      | [] => none
      | c :: rest =>
        if c = ',' then parseElements fuel rest (acc ++ [val])
        else if c = ']' then some (.arr (acc ++ [val]), rest)
        else none
end

/-- A JSON text: one value, whitespace around it allowed. -/
def parseJSON (text : GoString) : Option Value :=
  match parseValue (text.length + 1) text with
  | some (val, rest) => if skipWs rest = [] then some val else none
  | none => none

/-- Whether the literal of a number is an integer of at most fifteen digits: for
such a number `cast.ToString` prints the literal. -/
def isPlainInteger (text : GoString) : Bool :=
  let digits : GoString :=
    match text with
    | '-' :: rest => rest
    | _ => text
  digits.all (fun c => decide ('0' ≤ c ∧ c ≤ '9')) && decide (digits.length ≤ 15)

mutual
/-- Whether every number in the value is a plain integer. -/
def plainNumbers : Value → Bool
  | .num text => isPlainInteger text
  | .arr items => plainNumbersItems items
  | .obj fields => plainNumbersFields fields
  | _ => true
/-- See `plainNumbers`. -/
def plainNumbersItems : List Value → Bool
  | [] => true
  | v :: rest => plainNumbers v && plainNumbersItems rest
/-- See `plainNumbers`. -/
def plainNumbersFields : List (GoString × Value) → Bool
  | [] => true
  | (_, v) :: rest => plainNumbers v && plainNumbersFields rest
end

/-- A decoder for worked examples: `json.Unmarshal` into a `map[string]any`
accepts an object, and `null`, which leaves the map empty; a byte of the file
that is not valid UTF-8 is read as U+FFFD. The entries are listed in the order
of the text. The decoder covers the documents whose numbers are plain
integers, which `cast.ToString` prints as they are written; it gives up on a
document with another number, as no worked example holds one (there
`json.Unmarshal` rounds to a `float64`, or reports a range error). -/
def decodeObject (text : RawString) : Option (List (GoString × Value)) :=
  match parseJSON (runesOf text) with
  | some (.obj m) => if plainNumbersFields m then some m else none
  | some .null => some []
  | _ => none

/-- A library for worked examples on ASCII text: runes above ASCII are left
as they are, and JSON is decoded by `decodeObject`. -/
def asciiLib : GoLib :=
  { upper := fun c => c, lower := fun c => c, jsonUnmarshal := decodeObject }

/-- A library for a worked example beyond ASCII: the Kelvin sign U+212A is its
own upper case and has the ASCII letter `k` as its lower case, as in Go's
tables; the other runes above ASCII are left as they are. -/
def kelvinLib : GoLib :=
  { upper := fun c => c,
    lower := fun c => if c = '\u212A' then 'k' else c,
    jsonUnmarshal := decodeObject }

/-- A library for a worked example with an accented letter: U+00E9 has U+00C9 as
its upper case and U+00C9 has U+00E9 as its lower case, as in Go's tables; the
other runes above ASCII are left as they are. -/
def accentLib : GoLib :=
  { upper := fun c => if c = '\u00E9' then '\u00C9' else c,
    lower := fun c => if c = '\u00C9' then '\u00E9' else c,
    jsonUnmarshal := decodeObject }

/-! ## `DumpTranslationKeyMap` and the finalize function -/

/-- What the operating system answers in one run of `DumpTranslationKeyMap`: the
error of `os.Create`, and the error of `file.Write` for the data given. -/
structure FileSystem where
  createError : Option String
  writeError : GoString → Option String

/-- Function `DumpTranslationKeyMap` (lines 62 to 81) on any `map[string]string`,
`none` being the `nil` map: the error it returns, or the text it has written
to `github-mcp-server-config.json` when it returns `nil`. -/
def DumpTranslationKeyMap (os : FileSystem)
    (translationKeyMap : Option (List (RawString × RawString))) : Except String GoString :=
  match os.createError with
  | some err => .error ("error creating file: " ++ err)
  | none =>
    match jsonMarshalIndent translationKeyMap with
    | .error err => .error ("error marshaling map to JSON: " ++ err)
    | .ok jsonData =>
      match os.writeError jsonData with
      | some err => .error ("error writing to file: " ++ err)
      | none => .ok jsonData

/-- How a call of the finalize function ends. -/
inductive Finalized where
  | returned (written : GoString)
  | exited (message : String)

/-- The map `translationKeyMap` of a resolver as the `map[string]string` that the
finalize function hands to `DumpTranslationKeyMap`: made by
`map[string]string{}` (line 20), so not `nil`. -/
def Resolver.cache (r : Resolver) : Option (List (RawString × RawString)) :=
  some (r.translationKeyMap.map fun kv => (rawOf kv.1, kv.2))

/-- The finalize function, second closure returned by `TranslationHelper` (lines
53 to 58): `log.Fatalf` ends the process when the dump returns an error. -/
def Resolver.finalize (os : FileSystem) (r : Resolver) : Finalized :=
  match DumpTranslationKeyMap os r.cache with
  | .error err => .exited ("Could not dump translation key map: " ++ err)
  | .ok written => .returned written

/-! ## Notions the statements use -/

/-- Two runes that are equal, or an ASCII letter in its two cases, or both one
of `-` and `_`. -/
def sameRuneUpToCase (a b : Char) : Bool :=
  a = b ∨ ('a' ≤ a ∧ a ≤ 'z' ∧ b.toNat + 32 = a.toNat) ∨
    ('a' ≤ b ∧ b ≤ 'z' ∧ a.toNat + 32 = b.toNat) ∨
    ((a = '-' ∨ a = '_') ∧ (b = '-' ∨ b = '_'))

/-- Two keys that differ only in ASCII letter case and in `-` against `_`. -/
def differOnlyInCaseAndSeparator : GoString → GoString → Bool
  | [], [] => true
  | a :: s, b :: t => sameRuneUpToCase a b && differOnlyInCaseAndSeparator s t
  | _, _ => false

/-- The environment variable the specification names for a key: `GITHUB_MCP_`
followed by the normalized key. -/
def envVarName (L : GoLib) (key : GoString) : GoString :=
  "GITHUB_MCP_".toList ++ normalizedKey L key

/-- The environment that holds exactly the given variables. -/
def envOf (vars : List (GoString × RawString)) : Env :=
  fun name => mapGet vars name

/-- The name of the file the specification speaks of: `github-mcp-server-config.json`. -/
def configFileName : GoString :=
  configName ++ '.' :: "json".toList

/-- The working directory that holds exactly the given files. -/
def dirOf (files : List (GoString × ConfigFile)) : WorkDir :=
  fun name => (mapGet files name).getD .notFound

/-- The member of a JSON object that an entry of a `map[string]string` is to be
read back as: its key as the name, its value as a string. -/
def asMember (kv : RawString × RawString) : GoString × Value :=
  (runesOf kv.1, .str kv.2)

/-- The dotted prefixes of a key, the key itself included: `a`, `a.b` and `a.b.c`
for the key `a.b.c`. -/
def keyPrefixes (s : GoString) : List GoString :=
  (List.range' 1 (splitDot s).length).map fun i => joinDot ((splitDot s).take i)

/-- The configuration holds no value for the lower-cased key: the search of `find`
in it returns `nil`, and no proper prefix of the key's path holds a plain
value that would hide the defaults. -/
def configSilent (L : GoLib) (config : List (GoString × Value)) (lcaseKey : GoString) : Bool :=
  (searchIndexableWithPathPrefixes L (splitDot lcaseKey).length (.obj config)
      (splitDot lcaseKey)).isNil &&
    !(decide ((splitDot lcaseKey).length > 1) &&
      decide (isPathShadowedInDeep (splitDot lcaseKey) config ≠ []))

/-- The environment without the named variable: `os.Unsetenv`. -/
def unsetenv (env : Env) (name : GoString) : Env :=
  fun n => if n = name then none else env n

/-! ## Sequences of calls -/

/-- One call of the resolution function, with the environment it finds. -/
structure Call where
  env : Env
  key : GoString
  defaultValue : RawString

/-- The state of the resolver after a sequence of calls. -/
def Resolver.run (L : GoLib) : Resolver → List Call → Resolver
  | r, [] => r
  | r, c :: rest => Resolver.run L (r.resolve L c.env c.key c.defaultValue).2 rest

/-- The values a sequence of calls returns, in order. -/
def Resolver.results (L : GoLib) : Resolver → List Call → List RawString
  | _, [] => []
  | r, c :: rest =>
    (r.resolve L c.env c.key c.defaultValue).1 ::
      Resolver.results L (r.resolve L c.env c.key c.defaultValue).2 rest

/-! ## Maps: basic facts -/

theorem mapGet_mapSet_self {α : Type} (m : List (GoString × α)) (k : GoString) (v : α) :
    mapGet (mapSet m k v) k = some v := by
  induction m with
  | nil => simp [mapSet, mapGet]
  | cons e rest ih =>
    obtain ⟨k', v'⟩ := e
    by_cases h : k' = k
    · simp [mapSet, mapGet, h]
    · simp [mapSet, mapGet, h, ih]

theorem mapGet_mapSet_of_ne {α : Type} (m : List (GoString × α)) (k k2 : GoString) (v : α)
    (h : k ≠ k2) : mapGet (mapSet m k v) k2 = mapGet m k2 := by
  induction m with
  | nil => simp [mapSet, mapGet, h]
  | cons e rest ih =>
    obtain ⟨k', v'⟩ := e
    by_cases h1 : k' = k
    · subst h1
      simp [mapSet, mapGet, h]
    · by_cases h2 : k' = k2
      · subst h2
        simp [mapSet, mapGet, h1]
      · simp [mapSet, mapGet, h1, h2, ih]

theorem mapKeys_cons {α : Type} (e : GoString × α) (m : List (GoString × α)) :
    mapKeys (e :: m) = e.1 :: mapKeys m := rfl

theorem mapKeys_append {α : Type} (m1 m2 : List (GoString × α)) :
    mapKeys (m1 ++ m2) = mapKeys m1 ++ mapKeys m2 := by
  unfold mapKeys
  exact List.map_append _ _ _

theorem mapGet_eq_none_iff {α : Type} (m : List (GoString × α)) (k : GoString) :
    mapGet m k = none ↔ k ∉ mapKeys m := by
  induction m with
  | nil => exact ⟨fun _ h => (List.not_mem_nil _ h).elim, fun _ => rfl⟩
  | cons e rest ih =>
    obtain ⟨k', v'⟩ := e
    rw [mapKeys_cons, List.mem_cons]
    by_cases h : k' = k
    · subst h
      simp [mapGet]
    · have h' : ¬ k = k' := fun e => h e.symm
      simp only [mapGet, h, if_false, ih, h', false_or]

theorem mapSet_of_not_mem {α : Type} (m : List (GoString × α)) (k : GoString) (v : α)
    (h : k ∉ mapKeys m) : mapSet m k v = m ++ [(k, v)] := by
  induction m with
  | nil => rfl
  | cons e rest ih =>
    obtain ⟨k', v'⟩ := e
    rw [mapKeys_cons, List.mem_cons, not_or] at h
    have h1 : ¬ k' = k := fun e => h.1 e.symm
    simp only [mapSet, h1, if_false, ih h.2, List.cons_append]

theorem mapKeys_mapSet {α : Type} (m : List (GoString × α)) (k : GoString) (v : α) :
    mapKeys (mapSet m k v) = if k ∈ mapKeys m then mapKeys m else mapKeys m ++ [k] := by
  induction m with
  | nil => rfl
  | cons e rest ih =>
    obtain ⟨k', v'⟩ := e
    by_cases h1 : k' = k
    · subst h1
      simp [mapSet, mapKeys_cons]
    · have h' : ¬ k = k' := fun e => h1 e.symm
      simp only [mapSet, h1, if_false, mapKeys_cons, ih, List.mem_cons, h', false_or]
      split <;> rfl

/-! ## The cache -/

theorem resolve_of_cached (L : GoLib) (env : Env) (r : Resolver) (key : GoString)
    (d value : RawString)
    (h : mapGet r.translationKeyMap (normalizedKey L key) = some value) :
    r.resolve L env key d = (value, r) := by
  simp [Resolver.resolve, h]

theorem resolve_of_not_cached (L : GoLib) (env : Env) (r : Resolver) (key : GoString)
    (d : RawString)
    (h : mapGet r.translationKeyMap (normalizedKey L key) = none) :
    r.resolve L env key d =
      ((r.v.SetDefault L (normalizedKey L key) d).GetString L env (normalizedKey L key),
        { translationKeyMap := mapSet r.translationKeyMap (normalizedKey L key)
            ((r.v.SetDefault L (normalizedKey L key) d).GetString L env (normalizedKey L key)),
          v := r.v.SetDefault L (normalizedKey L key) d }) := by
  simp [Resolver.resolve, h]

/-- After a call, the cache holds the value returned under the normalized key. -/
theorem resolve_caches (L : GoLib) (env : Env) (r : Resolver) (key : GoString)
    (d : RawString) :
    mapGet (r.resolve L env key d).2.translationKeyMap (normalizedKey L key) =
      some (r.resolve L env key d).1 := by
  cases h : mapGet r.translationKeyMap (normalizedKey L key) with
  | some value => rw [resolve_of_cached L env r key d value h]; exact h
  | none => rw [resolve_of_not_cached L env r key d h]; exact mapGet_mapSet_self _ _ _

/-- A call keeps every entry the cache holds. -/
theorem resolve_keeps (L : GoLib) (env : Env) (r : Resolver) (key : GoString) (d : RawString)
    (k : GoString) (value : RawString)
    (h : mapGet r.translationKeyMap k = some value) :
    mapGet (r.resolve L env key d).2.translationKeyMap k = some value := by
  cases hc : mapGet r.translationKeyMap (normalizedKey L key) with
  | some value2 => rw [resolve_of_cached L env r key d value2 hc]; exact h
  | none =>
    rw [resolve_of_not_cached L env r key d hc]
    have hne : normalizedKey L key ≠ k := by
      intro e
      rw [e, h] at hc
      exact Option.noConfusion hc
    simpa [mapGet_mapSet_of_ne _ _ _ _ hne] using h

/-- A sequence of calls keeps every entry the cache holds. -/
theorem run_keeps (L : GoLib) (calls : List Call) (r : Resolver) (k : GoString)
    (value : RawString)
    (h : mapGet r.translationKeyMap k = some value) :
    mapGet (r.run L calls).translationKeyMap k = some value := by
  induction calls generalizing r with
  | nil => exact h
  | cons c rest ih =>
    exact ih _ (resolve_keeps L c.env r c.key c.defaultValue k value h)


theorem run_append (L : GoLib) (pre post : List Call) (r : Resolver) :
    r.run L (pre ++ post) = (r.run L pre).run L post := by
  induction pre generalizing r with
  | nil => rfl
  | cons c rest ih => exact ih _

theorem resolve_keys (L : GoLib) (env : Env) (r : Resolver) (key : GoString) (d : RawString) :
    mapKeys (r.resolve L env key d).2.translationKeyMap =
      if normalizedKey L key ∈ mapKeys r.translationKeyMap then mapKeys r.translationKeyMap
      else mapKeys r.translationKeyMap ++ [normalizedKey L key] := by
  cases hc : mapGet r.translationKeyMap (normalizedKey L key) with
  | some value =>
    have hm : normalizedKey L key ∈ mapKeys r.translationKeyMap := by
      by_contra hn
      rw [(mapGet_eq_none_iff _ _).2 hn] at hc
      exact Option.noConfusion hc
    rw [resolve_of_cached L env r key d value hc, if_pos hm]
  | none =>
    have hn := (mapGet_eq_none_iff _ _).1 hc
    rw [resolve_of_not_cached L env r key d hc, if_neg hn]
    simp only [mapKeys_mapSet, if_neg hn]

theorem resolve_nodup (L : GoLib) (env : Env) (r : Resolver) (key : GoString) (d : RawString)
    (h : (mapKeys r.translationKeyMap).Nodup) :
    (mapKeys (r.resolve L env key d).2.translationKeyMap).Nodup := by
  rw [resolve_keys]
  split
  · exact h
  · rename_i hn
    rw [List.nodup_append]
    refine ⟨h, List.nodup_singleton _, ?_⟩
    intro a ha hb
    rw [List.mem_singleton] at hb
    exact hn (hb ▸ ha)

theorem run_nodup (L : GoLib) (calls : List Call) (r : Resolver)
    (h : (mapKeys r.translationKeyMap).Nodup) :
    (mapKeys (r.run L calls).translationKeyMap).Nodup := by
  induction calls generalizing r with
  | nil => exact h
  | cons c rest ih => exact ih _ (resolve_nodup L c.env r c.key c.defaultValue h)

theorem run_mem_keys (L : GoLib) (calls : List Call) (r : Resolver) (k : GoString) :
    k ∈ mapKeys (r.run L calls).translationKeyMap ↔
      k ∈ mapKeys r.translationKeyMap ∨ ∃ c ∈ calls, normalizedKey L c.key = k := by
  induction calls generalizing r with
  | nil => simp [Resolver.run]
  | cons c rest ih =>
    simp only [Resolver.run]
    rw [ih, resolve_keys]
    constructor
    · rintro (h | ⟨c', hc', rfl⟩)
      · split at h
        · exact Or.inl h
        · rcases List.mem_append.1 h with h | h
          · exact Or.inl h
          · exact Or.inr ⟨c, List.mem_cons_self _ _, (List.mem_singleton.1 h).symm⟩
      · exact Or.inr ⟨c', List.mem_cons_of_mem _ hc', rfl⟩
    · rintro (h | ⟨c', hc', rfl⟩)
      · left
        split
        · exact h
        · exact List.mem_append_left _ h
      · rcases List.mem_cons.1 hc' with rfl | hc'
        · left
          split
          · assumption
          · exact List.mem_append_right _ (List.mem_singleton_self _)
        · exact Or.inr ⟨c', hc', rfl⟩

theorem helper_cache_empty (L : GoLib) (dir : WorkDir) :
    (TranslationHelper L dir).1.translationKeyMap = [] := by
  simp only [TranslationHelper]

/-! ## ASCII runes -/

theorem ascii_cases (P : Char → Prop) (h : ∀ n, n < 128 → P (Char.ofNat n)) (c : Char)
    (hc : isASCII c = true) : P c := by
  have hlt : c.toNat < 128 := by
    have : c.toNat ≤ 0x7F := by simpa [isASCII] using hc
    omega
  have := h c.toNat hlt
  rwa [Char.ofNat_toNat] at this

theorem unicodeToUpper_ascii (L : GoLib) (c : Char) (hc : isASCII c = true) :
    unicodeToUpper L c = asciiUpper c := by
  simp [unicodeToUpper, asciiUpper, hc]

theorem unicodeToLower_ascii (L : GoLib) (c : Char) (hc : isASCII c = true) :
    unicodeToLower L c = asciiLower c := by
  simp [unicodeToLower, asciiLower, hc]

set_option maxRecDepth 100000 in
theorem asciiUpper_facts : ∀ n, n < 128 →
    isASCII (asciiUpper (Char.ofNat n)) = true ∧
    (Char.ofNat n ≠ '-' → asciiUpper (Char.ofNat n) ≠ '-') ∧
    ¬ ('a' ≤ asciiUpper (Char.ofNat n) ∧ asciiUpper (Char.ofNat n) ≤ 'z') := by
  decide

theorem normalizedKey_rune (L : GoLib)
    (hL : ∀ c, isASCII c = false → L.upper c ≠ '-' ∧ ¬ ('a' ≤ L.upper c ∧ L.upper c ≤ 'z'))
    (c : Char) :
    unicodeToUpper L (if c = '-' then '_' else c) ≠ '-' ∧
      ¬ ('a' ≤ unicodeToUpper L (if c = '-' then '_' else c) ∧
          unicodeToUpper L (if c = '-' then '_' else c) ≤ 'z') := by
  by_cases h : c = '-'
  · subst h
    rw [if_pos rfl, unicodeToUpper_ascii L '_' (by decide)]
    decide
  · rw [if_neg h]
    cases hc : isASCII c with
    | true =>
      rw [unicodeToUpper_ascii L c hc]
      have := ascii_cases
        (fun c => isASCII (asciiUpper c) = true ∧ (c ≠ '-' → asciiUpper c ≠ '-') ∧
          ¬ ('a' ≤ asciiUpper c ∧ asciiUpper c ≤ 'z')) asciiUpper_facts c hc
      exact ⟨this.2.1 h, this.2.2⟩
    | false =>
      have : unicodeToUpper L c = L.upper c := by simp [unicodeToUpper, hc]
      rw [this]
      exact hL c hc

theorem normalizedKey_chars (L : GoLib)
    (hL : ∀ c, isASCII c = false → L.upper c ≠ '-' ∧ ¬ ('a' ≤ L.upper c ∧ L.upper c ≤ 'z'))
    (key : GoString) (ch : Char) (h : ch ∈ normalizedKey L key) :
    ch ≠ '-' ∧ ¬ ('a' ≤ ch ∧ ch ≤ 'z') := by
  simp only [normalizedKey, stringsToUpper, replaceHyphens, List.map_map, List.mem_map,
    Function.comp] at h
  obtain ⟨c, _, rfl⟩ := h
  exact normalizedKey_rune L hL c

/-! ## The claims on the cache -/

/-- C9: `NullTranslationHelper` returns the default it is given, unchanged, for
every key and every default; neither the environment nor a configuration file
is among its arguments. -/
theorem null_helper_returns_default (key : GoString) (defaultValue : RawString) :
    NullTranslationHelper key defaultValue = defaultValue :=
  rfl

/-- C2: on one resolver, in whatever state, the value a call returns for a key
is the value every later call returns for that key, whatever the later
default, whatever the environment of either call, and whatever calls were
made in between. -/
theorem first_resolution_wins (L : GoLib) (r : Resolver) (env1 env2 : Env)
    (k : GoString) (d1 d2 : RawString) (between : List Call) :
    (((r.resolve L env1 k d1).2.run L between).resolve L env2 k d2).1 =
      (r.resolve L env1 k d1).1 := by
  have h := run_keeps L between _ _ _ (resolve_caches L env1 r k d1)
  rw [resolve_of_cached L env2 _ k d2 _ h]

/-- C10: after any sequence of calls on a freshly built resolver the keys of the
cache are pairwise distinct and are exactly the normalized forms of the keys
requested; no stored key holds a `-` or a lower-case ASCII letter, given that
the Unicode tables map no rune above ASCII to one; the entry of a key is the value
returned by each call whose key normalizes to it, the first one included; a
call keeps every entry there is, and a call on a cached key leaves the state
as it was. -/
theorem cache_characterisation (L : GoLib) (dir : WorkDir) (calls : List Call) :
    (mapKeys ((TranslationHelper L dir).1.run L calls).translationKeyMap).Nodup ∧
    (∀ k, k ∈ mapKeys ((TranslationHelper L dir).1.run L calls).translationKeyMap ↔
      ∃ c ∈ calls, normalizedKey L c.key = k) ∧
    ((∀ c, isASCII c = false →
        L.upper c ≠ '-' ∧ ¬ ('a' ≤ L.upper c ∧ L.upper c ≤ 'z')) →
      ∀ k ∈ mapKeys ((TranslationHelper L dir).1.run L calls).translationKeyMap,
        ∀ ch ∈ k, ch ≠ '-' ∧ ¬ ('a' ≤ ch ∧ ch ≤ 'z')) ∧
    (∀ pre c post, calls = pre ++ c :: post →
      mapGet ((TranslationHelper L dir).1.run L calls).translationKeyMap
          (normalizedKey L c.key) =
        some (((TranslationHelper L dir).1.run L pre).resolve L c.env c.key
          c.defaultValue).1) ∧
    (∀ (s : Resolver) (env : Env) (key : GoString) (d : RawString) (k : GoString)
        (value : RawString),
      mapGet s.translationKeyMap k = some value →
      mapGet (s.resolve L env key d).2.translationKeyMap k = some value) ∧
    (∀ (s : Resolver) (env : Env) (key : GoString) (d : RawString),
      normalizedKey L key ∈ mapKeys s.translationKeyMap →
      (s.resolve L env key d).2 = s) := by
  have hmem : ∀ k, k ∈ mapKeys ((TranslationHelper L dir).1.run L calls).translationKeyMap ↔
      ∃ c ∈ calls, normalizedKey L c.key = k := by
    intro k
    rw [run_mem_keys, helper_cache_empty]
    simp [mapKeys]
  refine ⟨?_, hmem, ?_, ?_, ?_, ?_⟩
  · apply run_nodup
    rw [helper_cache_empty]
    exact List.nodup_nil
  · intro hL k hk ch hch
    obtain ⟨c, _, rfl⟩ := (hmem k).1 hk
    exact normalizedKey_chars L hL c.key ch hch
  · intro pre c post hcalls
    subst hcalls
    rw [run_append]
    exact run_keeps L post _ _ _ (resolve_caches L c.env _ c.key c.defaultValue)
  · intro s env key d k value h
    exact resolve_keeps L env s key d k value h
  · intro s env key d hm
    cases hc : mapGet s.translationKeyMap (normalizedKey L key) with
    | some value => rw [resolve_of_cached L env s key d value hc]
    | none => exact absurd hm ((mapGet_eq_none_iff _ _).1 hc)

theorem toNat_le_of_le (a b : Char) (h : a ≤ b) : a.toNat ≤ b.toNat := h

theorem upper_of_ascii_lower (L : GoLib) (a b : Char) (h1 : 'a' ≤ a) (h2 : a ≤ 'z')
    (h3 : b.toNat + 32 = a.toNat) :
    unicodeToUpper L (if a = '-' then '_' else a) =
      unicodeToUpper L (if b = '-' then '_' else b) := by
  have ha1 : 97 ≤ a.toNat := toNat_le_of_le _ _ h1
  have ha2 : a.toNat ≤ 122 := toNat_le_of_le _ _ h2
  have hna : a ≠ '-' := by
    intro e
    have : a.toNat = 45 := by rw [e]; rfl
    omega
  have hnb : b ≠ '-' := by
    intro e
    have : b.toNat = 45 := by rw [e]; rfl
    omega
  have hasc_a : isASCII a = true := by
    simp only [isASCII, decide_eq_true_eq]
    omega
  have hasc_b : isASCII b = true := by
    simp only [isASCII, decide_eq_true_eq]
    omega
  have hb : ¬ ('a' ≤ b ∧ b ≤ 'z') := by
    intro hb
    have : 97 ≤ b.toNat := toNat_le_of_le _ _ hb.1
    omega
  rw [if_neg hna, if_neg hnb, unicodeToUpper_ascii L a hasc_a, unicodeToUpper_ascii L b hasc_b]
  have hsub : a.toNat - 32 = b.toNat := by omega
  simp only [asciiUpper, h1, h2, and_self, if_true, hb, if_false, hsub, Char.ofNat_toNat]

theorem upper_of_sameRune (L : GoLib) (a b : Char) (h : sameRuneUpToCase a b = true) :
    unicodeToUpper L (if a = '-' then '_' else a) =
      unicodeToUpper L (if b = '-' then '_' else b) := by
  simp only [sameRuneUpToCase, decide_eq_true_eq] at h
  rcases h with h | ⟨h1, h2, h3⟩ | ⟨h1, h2, h3⟩ | ⟨ha, hb⟩
  · rw [h]
  · exact upper_of_ascii_lower L a b h1 h2 h3
  · exact (upper_of_ascii_lower L b a h1 h2 h3).symm
  · rcases ha with rfl | rfl <;> rcases hb with rfl | rfl <;> rfl

theorem normalizedKey_eq_of_differOnly (L : GoLib) (k1 k2 : GoString)
    (h : differOnlyInCaseAndSeparator k1 k2 = true) :
    normalizedKey L k1 = normalizedKey L k2 := by
  induction k1 generalizing k2 with
  | nil =>
    cases k2 with
    | nil => rfl
    | cons b t => simp [differOnlyInCaseAndSeparator] at h
  | cons a s ih =>
    cases k2 with
    | nil => simp [differOnlyInCaseAndSeparator] at h
    | cons b t =>
      simp only [differOnlyInCaseAndSeparator, Bool.and_eq_true] at h
      have hr := upper_of_sameRune L a b h.1
      have ht := ih t h.2
      simp only [normalizedKey, stringsToUpper, replaceHyphens, List.map_cons] at ht ⊢
      rw [hr, ht]

/-- C4: for two keys that differ only in ASCII letter case and in `-` against
`_`, the normalized keys are equal; on any resolver the call with the second
key returns what the call with the first returned and leaves the state as the
first call left it; on a freshly built resolver the cache then holds exactly
one entry, the value returned, under the shared normalized key. -/
theorem normalization_shares_entry (L : GoLib) (dir : WorkDir) (r : Resolver)
    (env1 env2 : Env) (k1 k2 : GoString) (d1 d2 : RawString)
    (h : differOnlyInCaseAndSeparator k1 k2 = true) :
    normalizedKey L k1 = normalizedKey L k2 ∧
    ((r.resolve L env1 k1 d1).2.resolve L env2 k2 d2).1 = (r.resolve L env1 k1 d1).1 ∧
    ((r.resolve L env1 k1 d1).2.resolve L env2 k2 d2).2 = (r.resolve L env1 k1 d1).2 ∧
    ((((TranslationHelper L dir).1.resolve L env1 k1 d1).2.resolve L env2 k2 d2).1 =
      ((TranslationHelper L dir).1.resolve L env1 k1 d1).1 ∧
     (((TranslationHelper L dir).1.resolve L env1 k1 d1).2.resolve L env2 k2
        d2).2.translationKeyMap =
      [(normalizedKey L k1, ((TranslationHelper L dir).1.resolve L env1 k1 d1).1)]) := by
  have hk := normalizedKey_eq_of_differOnly L k1 k2 h
  have hsecond : ∀ s : Resolver,
      (s.resolve L env1 k1 d1).2.resolve L env2 k2 d2 =
        ((s.resolve L env1 k1 d1).1, (s.resolve L env1 k1 d1).2) := by
    intro s
    have hc := resolve_caches L env1 s k1 d1
    rw [hk] at hc
    exact resolve_of_cached L env2 _ k2 d2 _ hc
  refine ⟨hk, ?_, ?_, ?_, ?_⟩
  · rw [hsecond r]
  · rw [hsecond r]
  · rw [hsecond]
  · rw [hsecond]
    have hempty := helper_cache_empty L dir
    have hnone : mapGet (TranslationHelper L dir).1.translationKeyMap (normalizedKey L k1) =
        none := by
      rw [hempty]; rfl
    rw [resolve_of_not_cached L env1 _ k1 d1 hnone, hempty]
    rfl

/-! ## The environment -/

set_option maxRecDepth 100000 in
theorem ascii_key_facts : ∀ n, n < 128 →
    isASCII (if Char.ofNat n = '-' then '_' else Char.ofNat n) = true ∧
    isASCII (asciiUpper (if Char.ofNat n = '-' then '_' else Char.ofNat n)) = true ∧
    isASCII (asciiLower (asciiUpper (if Char.ofNat n = '-' then '_' else Char.ofNat n))) = true ∧
    isASCII (asciiUpper (asciiLower (asciiUpper
      (if Char.ofNat n = '-' then '_' else Char.ofNat n)))) = true ∧
    asciiUpper (asciiLower (asciiUpper (if Char.ofNat n = '-' then '_' else Char.ofNat n))) =
      asciiUpper (if Char.ofNat n = '-' then '_' else Char.ofNat n) ∧
    asciiUpper (if Char.ofNat n = '-' then '_' else Char.ofNat n) ≠ '-' := by
  decide

/-- The rune facts of `ascii_key_facts`, for the library functions. -/
theorem key_rune_facts (L : GoLib) (c : Char) (hc : isASCII c = true) :
    unicodeToUpper L (unicodeToLower L (unicodeToUpper L (if c = '-' then '_' else c))) =
      unicodeToUpper L (if c = '-' then '_' else c) ∧
    unicodeToUpper L (if c = '-' then '_' else c) ≠ '-' := by
  obtain ⟨h1, h2, h3, _, h5, h6⟩ := ascii_cases
    (fun c =>
      isASCII (if c = '-' then '_' else c) = true ∧
      isASCII (asciiUpper (if c = '-' then '_' else c)) = true ∧
      isASCII (asciiLower (asciiUpper (if c = '-' then '_' else c))) = true ∧
      isASCII (asciiUpper (asciiLower (asciiUpper (if c = '-' then '_' else c)))) = true ∧
      asciiUpper (asciiLower (asciiUpper (if c = '-' then '_' else c))) =
        asciiUpper (if c = '-' then '_' else c) ∧
      asciiUpper (if c = '-' then '_' else c) ≠ '-')
    ascii_key_facts c hc
  rw [unicodeToUpper_ascii L _ h1, unicodeToLower_ascii L _ h2, unicodeToUpper_ascii L _ h3]
  exact ⟨h5, h6⟩

/-- The normalized form of a key made of ASCII runes is given back when it is
lower-cased, upper-cased again and its `-` replaced. -/
theorem ascii_key_round_trips (L : GoLib) (k : GoString) (hk : ∀ c ∈ k, isASCII c = true) :
    replaceHyphens (stringsToUpper L (stringsToLower L (normalizedKey L k))) =
      normalizedKey L k := by
  induction k with
  | nil => rfl
  | cons c rest ih =>
    have hf := key_rune_facts L c (hk c (List.mem_cons_self _ _))
    have ht := ih (fun x hx => hk x (List.mem_cons_of_mem _ hx))
    simp only [normalizedKey, stringsToUpper, stringsToLower, replaceHyphens,
      List.map_cons] at ht ⊢
    rw [ht, hf.1, if_neg hf.2]

theorem mergeWithEnvPrefix_eq (L : GoLib) (s : GoString) :
    replaceHyphens (mergeWithEnvPrefix L s) =
      "GITHUB_MCP_".toList ++ replaceHyphens (stringsToUpper L s) := by
  simp only [mergeWithEnvPrefix, stringsToUpper, replaceHyphens, List.map_append,
    List.map_cons]
  rfl

/-- For a key whose normalized form is given back by the round trip, the name
viper looks up in the environment is `GITHUB_MCP_` followed by the normalized
key. -/
theorem viper_env_name (L : GoLib) (k : GoString)
    (hround : replaceHyphens (stringsToUpper L (stringsToLower L (normalizedKey L k))) =
      normalizedKey L k) :
    replaceHyphens (mergeWithEnvPrefix L (stringsToLower L (normalizedKey L k))) =
      envVarName L k := by
  rw [mergeWithEnvPrefix_eq, hround]
  rfl

theorem find_of_env (L : GoLib) (env : Env) (v : Viper) (lcaseKey : GoString) (val : RawString)
    (h : getEnv env (mergeWithEnvPrefix L lcaseKey) = some val) :
    v.find L env lcaseKey = .str val := by
  simp [Viper.find, h]

/-- For viper a variable set to the empty string is a variable that is not set. -/
theorem getEnv_unsetenv (env : Env) (name : GoString) (h : env name = some []) :
    getEnv (unsetenv env name) = getEnv env := by
  funext key
  by_cases hk : replaceHyphens key = name
  · simp only [getEnv, unsetenv, hk, if_true, h]
  · simp only [getEnv, unsetenv, hk, if_false]

theorem resolve_unsetenv (L : GoLib) (env : Env) (r : Resolver) (k : GoString) (d : RawString)
    (name : GoString) (h : env name = some []) :
    r.resolve L (unsetenv env name) k d = r.resolve L env k d := by
  simp only [Resolver.resolve, Viper.GetString, Viper.find, isPathShadowedInAutoEnv,
    getEnv_unsetenv env name h]

/-- C1, amended: for every key that the resolver has not resolved yet and whose
normalized form is given back when viper's lower-casing of it is upper-cased
again with `-` replaced by `_`, every default, and every state of the resolver
(so every configuration file): when the environment variable `GITHUB_MCP_`
followed by the normalized key is set to a value that is not empty, the
resolution function returns that value. Every key made of ASCII runes is
such a key. A variable set to the empty string counts as unset: for every
key, a call returns the same value and leaves the same state with such a
variable as without it. -/
theorem env_overrides (L : GoLib) (env : Env) (r : Resolver) (k : GoString)
    (d value : RawString)
    (hround : replaceHyphens (stringsToUpper L (stringsToLower L (normalizedKey L k))) =
      normalizedKey L k)
    (hfresh : mapGet r.translationKeyMap (normalizedKey L k) = none)
    (hset : env (envVarName L k) = some value) (hvalue : value ≠ []) :
    (r.resolve L env k d).1 = value ∧
    (∀ (L2 : GoLib) (k2 : GoString), (∀ c ∈ k2, isASCII c = true) →
      replaceHyphens (stringsToUpper L2 (stringsToLower L2 (normalizedKey L2 k2))) =
        normalizedKey L2 k2) ∧
    ∀ (env2 : Env) (s : Resolver) (k2 : GoString) (d2 : RawString) (name : GoString),
      env2 name = some [] →
      s.resolve L env2 k2 d2 = s.resolve L (unsetenv env2 name) k2 d2 := by
  refine ⟨?_, ascii_key_round_trips,
    fun env2 s k2 d2 name h => (resolve_unsetenv L env2 s k2 d2 name h).symm⟩
  rw [resolve_of_not_cached L env r k d hfresh]
  have hget : getEnv env (mergeWithEnvPrefix L (stringsToLower L (normalizedKey L k))) =
      some value := by
    simp only [getEnv, viper_env_name L k hround, hset, if_neg hvalue]
  simp only [Viper.GetString, find_of_env L env _ _ _ hget, castToString]

/-! ## Dotted keys -/

theorem splitDot_ne_nil (s : GoString) : splitDot s ≠ [] := by
  induction s with
  | nil => simp [splitDot]
  | cons c rest ih =>
    by_cases hc : c = '.'
    · simp [splitDot, hc]
    · cases hs : splitDot rest with
      | nil => exact absurd hs ih
      | cons seg segs => simp [splitDot, hc, hs]

theorem firstNonNil_null (f : Nat → Value) (l : List Nat) (h : ∀ i ∈ l, f i = .null) :
    firstNonNil f l = .null := by
  induction l with
  | nil => rfl
  | cons i rest ih =>
    simp only [firstNonNil, h i (List.mem_cons_self _ _), Value.isNil, if_true]
    exact ih (fun j hj => h j (List.mem_cons_of_mem _ hj))

/-- The search in a configuration finds nothing when no prefix of the path, lower-cased,
is the name of an entry that is not `nil`. -/
theorem searchIndexable_null (L : GoLib) (config : List (GoString × Value))
    (path : List GoString) (hpath : path ≠ [])
    (h : ∀ i ∈ List.range' 1 path.length,
      mapGet config (stringsToLower L (joinDot (path.take i))) = none ∨
      mapGet config (stringsToLower L (joinDot (path.take i))) = some .null) :
    (searchIndexableWithPathPrefixes L path.length (.obj config) path).isNil = true := by
  cases path with
  | nil => exact absurd rfl hpath
  | cons p ps =>
    simp only [List.length_cons, searchIndexableWithPathPrefixes]
    rw [firstNonNil_null]
    · rfl
    · intro i hi
      rcases h i (List.mem_reverse.1 hi) with hg | hg
      · simp only [hg]
      · simp only [hg]
        split <;> rfl

/-- No prefix of the path hides the defaults when the first segment is not the
name of an entry that is not `nil`. -/
theorem isPathShadowedInDeep_null (config : List (GoString × Value)) (path : List GoString)
    (h : ∀ p ps, path = p :: ps → mapGet config p = none ∨ mapGet config p = some .null) :
    isPathShadowedInDeep path config = [] := by
  cases path with
  | nil => rfl
  | cons p ps =>
    cases ps with
    | nil => rfl
    | cons q qs =>
      have h1 : List.range' 1 ((p :: q :: qs).length - 1) =
          1 :: List.range' 2 ((q :: qs).length - 1) := by
        simp only [List.length_cons, Nat.add_sub_cancel]
        rfl
      unfold isPathShadowedInDeep
      rw [h1]
      rcases h p (q :: qs) rfl with hg | hg
      · simp only [isPathShadowedInDeepFrom, List.take_succ_cons, List.take_zero, searchMap, hg]
      · simp only [isPathShadowedInDeepFrom, List.take_succ_cons, List.take_zero, searchMap, hg]

/-- A configuration holds no value for a key when none of the dotted prefixes of
the key, the key included, is the name of an entry that is not `nil`. -/
theorem silent_of_absent (L : GoLib) (config : List (GoString × Value)) (lk : GoString)
    (h : ∀ p ∈ keyPrefixes lk,
      (mapGet config p = none ∨ mapGet config p = some .null) ∧
      (mapGet config (stringsToLower L p) = none ∨
        mapGet config (stringsToLower L p) = some .null)) :
    configSilent L config lk = true := by
  have hsearch := searchIndexable_null L config (splitDot lk) (splitDot_ne_nil lk)
    (fun i hi => (h _ (List.mem_map.2 ⟨i, hi, rfl⟩)).2)
  have hdeep : isPathShadowedInDeep (splitDot lk) config = [] := by
    apply isPathShadowedInDeep_null
    intro p ps hp
    have hmem : p ∈ keyPrefixes lk := by
      refine List.mem_map.2 ⟨1, ?_, ?_⟩
      · rw [hp]
        simp [List.mem_range'_1]
      · rw [hp]
        rfl
    exact (h p hmem).1
  simp only [configSilent, hsearch, hdeep, ne_eq, not_true_eq_false, decide_False,
    Bool.and_false, Bool.not_false, Bool.and_self]

theorem silent_nil (L : GoLib) (lk : GoString) : configSilent L [] lk = true :=
  silent_of_absent L [] lk (fun _ _ => ⟨Or.inl rfl, Or.inl rfl⟩)

/-- The configuration counts in `find` only through the values it holds: a
configuration that holds no value for the key gives what the empty one gives. -/
theorem find_silent_eq (L : GoLib) (env : Env) (v : Viper) (lk : GoString)
    (hsilent : configSilent L v.config lk = true) :
    v.find L env lk = Viper.find L env { config := [], defaults := v.defaults } lk := by
  have hsilent2 := hsilent
  simp only [configSilent, Bool.and_eq_true, Bool.not_eq_true', Bool.and_eq_false_iff,
    decide_eq_false_iff_not, decide_eq_true_eq] at hsilent
  obtain ⟨hnil, hdeep⟩ := hsilent
  have hdeep' : ¬ (decide ((splitDot lk).length > 1) = true ∧
      isPathShadowedInDeep (splitDot lk) v.config ≠ []) := by
    rintro ⟨h1, h2⟩
    rcases hdeep with hd | hd
    · exact hd (of_decide_eq_true h1)
    · exact hd h2
  have hempty := silent_nil L lk
  simp only [configSilent, Bool.and_eq_true, Bool.not_eq_true', Bool.and_eq_false_iff,
    decide_eq_false_iff_not, decide_eq_true_eq] at hempty
  obtain ⟨hnil0, hdeep0⟩ := hempty
  have hdeep0' : ¬ (decide ((splitDot lk).length > 1) = true ∧
      isPathShadowedInDeep (splitDot lk) [] ≠ []) := by
    rintro ⟨h1, h2⟩
    rcases hdeep0 with hd | hd
    · exact hd (of_decide_eq_true h1)
    · exact hd h2
  simp only [Viper.find, hnil, hnil0, Bool.not_true, Bool.false_eq_true, if_false, hdeep',
    hdeep0']

theorem resolve_config (L : GoLib) (env : Env) (r : Resolver) (key : GoString)
    (d : RawString) :
    (r.resolve L env key d).2.v.config = r.v.config := by
  cases hc : mapGet r.translationKeyMap (normalizedKey L key) with
  | some value => rw [resolve_of_cached L env r key d value hc]
  | none => rw [resolve_of_not_cached L env r key d hc]; rfl

/-- The configuration is empty unless a file was found, read and decoded. -/
theorem helper_config_empty (L : GoLib) (dir : WorkDir)
    (h : ∀ name text, Viper.searchInPath dir = some name → dir name = .content text →
      L.jsonUnmarshal text = none) :
    (TranslationHelper L dir).1.v.config = [] := by
  cases hfound : Viper.searchInPath dir with
  | none => simp only [TranslationHelper, Viper.ReadInConfig, hfound]; rfl
  | some name =>
    cases htext : dir name with
    | notFound => simp only [TranslationHelper, Viper.ReadInConfig, hfound, htext]; rfl
    | unreadable => simp only [TranslationHelper, Viper.ReadInConfig, hfound, htext]; rfl
    | content text =>
      simp only [TranslationHelper, Viper.ReadInConfig, hfound, htext, h name text hfound htext]
      rfl

/-- The file `github-mcp-server-config.json` is the one viper takes when it exists. -/
theorem searchInPath_json (dir : WorkDir) (h : dir configFileName ≠ .notFound) :
    Viper.searchInPath dir = some configFileName := by
  have hex : fileExists dir (configName ++ '.' :: "json".toList) = true := by
    unfold fileExists
    cases hd : dir (configName ++ '.' :: "json".toList) with
    | notFound => exact absurd hd h
    | unreadable => rfl
    | content text => rfl
  simp only [Viper.searchInPath, SupportedExts, List.find?, hex]
  rfl

/-- One call on two resolvers that differ only in their configurations, neither
of which holds a value for any key: the same value, and again two such
resolvers. -/
theorem resolve_of_silent (L : GoLib) (env : Env) (r1 r2 : Resolver) (k : GoString)
    (d : RawString)
    (hcache : r1.translationKeyMap = r2.translationKeyMap)
    (hdefaults : r1.v.defaults = r2.v.defaults)
    (h1 : ∀ key, configSilent L r1.v.config (stringsToLower L (normalizedKey L key)) = true)
    (h2 : ∀ key, configSilent L r2.v.config (stringsToLower L (normalizedKey L key)) = true) :
    (r1.resolve L env k d).1 = (r2.resolve L env k d).1 ∧
    (r1.resolve L env k d).2.translationKeyMap = (r2.resolve L env k d).2.translationKeyMap ∧
    (r1.resolve L env k d).2.v.defaults = (r2.resolve L env k d).2.v.defaults := by
  cases hc : mapGet r1.translationKeyMap (normalizedKey L k) with
  | some value =>
    rw [resolve_of_cached L env r1 k d value hc,
      resolve_of_cached L env r2 k d value (hcache ▸ hc)]
    exact ⟨rfl, hcache, hdefaults⟩
  | none =>
    rw [resolve_of_not_cached L env r1 k d hc,
      resolve_of_not_cached L env r2 k d (hcache ▸ hc)]
    have hd : (r1.v.SetDefault L (normalizedKey L k) d).defaults =
        (r2.v.SetDefault L (normalizedKey L k) d).defaults := by
      simp only [Viper.SetDefault, hdefaults]
    have hget : (r1.v.SetDefault L (normalizedKey L k) d).GetString L env (normalizedKey L k) =
        (r2.v.SetDefault L (normalizedKey L k) d).GetString L env (normalizedKey L k) := by
      simp only [Viper.GetString]
      rw [find_silent_eq L env (r1.v.SetDefault L (normalizedKey L k) d) _ (h1 k),
        find_silent_eq L env (r2.v.SetDefault L (normalizedKey L k) d) _ (h2 k), hd]
    refine ⟨hget, ?_, hd⟩
    simp only [hget, hcache]

theorem results_of_silent (L : GoLib) (calls : List Call) (r1 r2 : Resolver)
    (hcache : r1.translationKeyMap = r2.translationKeyMap)
    (hdefaults : r1.v.defaults = r2.v.defaults)
    (h1 : ∀ key, configSilent L r1.v.config (stringsToLower L (normalizedKey L key)) = true)
    (h2 : ∀ key, configSilent L r2.v.config (stringsToLower L (normalizedKey L key)) = true) :
    r1.results L calls = r2.results L calls := by
  induction calls generalizing r1 r2 with
  | nil => rfl
  | cons c rest ih =>
    obtain ⟨hval, hcache', hdefaults'⟩ :=
      resolve_of_silent L c.env r1 r2 c.key c.defaultValue hcache hdefaults h1 h2
    simp only [Resolver.results, hval]
    rw [ih _ _ hcache' hdefaults'
      (by rw [resolve_config]; exact h1) (by rw [resolve_config]; exact h2)]

theorem helper_defaults_empty (L : GoLib) (dir : WorkDir) :
    (TranslationHelper L dir).1.v.defaults = [] := by
  cases hfound : Viper.searchInPath dir with
  | none => simp only [TranslationHelper, Viper.ReadInConfig, hfound]; rfl
  | some name =>
    cases htext : dir name with
    | notFound => simp only [TranslationHelper, Viper.ReadInConfig, hfound, htext]; rfl
    | unreadable => simp only [TranslationHelper, Viper.ReadInConfig, hfound, htext]; rfl
    | content text =>
      cases hdoc : L.jsonUnmarshal text with
      | none => simp only [TranslationHelper, Viper.ReadInConfig, hfound, htext, hdoc]; rfl
      | some doc => simp only [TranslationHelper, Viper.ReadInConfig, hfound, htext, hdoc]; rfl

theorem helper_log_malformed (L : GoLib) (dir : WorkDir) (text : RawString)
    (hfile : dir configFileName = .content text) (hmalformed : L.jsonUnmarshal text = none) :
    (TranslationHelper L dir).2 = ["Could not read JSON config"] := by
  have hfound := searchInPath_json dir (by rw [hfile]; exact ConfigFile.noConfusion)
  simp only [TranslationHelper, Viper.ReadInConfig, hfound, hfile, hmalformed]

/-- The file viper takes is a file that exists. -/
theorem searchInPath_exists (dir : WorkDir) (name : GoString)
    (h : Viper.searchInPath dir = some name) : dir name ≠ .notFound := by
  have hex : fileExists dir name = true := by
    unfold Viper.searchInPath at h
    cases hf : SupportedExts.find? (fun ext => fileExists dir (configName ++ '.' :: ext)) with
    | some ext =>
      rw [hf] at h
      have := List.find?_some hf
      simp only [Option.some.injEq] at h
      rw [← h]
      exact this
    | none =>
      rw [hf] at h
      by_cases hb : fileExists dir configName = true
      · simp only [hb, if_true, Option.some.injEq] at h
        rw [← h]
        exact hb
      · simp only [hb, Bool.false_eq_true, if_false] at h
        exact Option.noConfusion h
  intro e
  simp only [fileExists, e] at hex
  exact Bool.noConfusion hex

theorem helper_log_absent (L : GoLib) (dir : WorkDir) (h : Viper.searchInPath dir = none) :
    (TranslationHelper L dir).2 = [] := by
  simp only [TranslationHelper, Viper.ReadInConfig, h]

/-- C7, amended: when `github-mcp-server-config.json` is there and `json.Unmarshal`
rejects its text, `TranslationHelper` still returns a resolver, with an empty
configuration and one line logged; every sequence of calls, in whatever
environments, returns on it the same values as on the resolver built in a
directory where that file does not exist, provided that the configuration
viper loads there holds no value for any key. Without
`github-mcp-server-config.json` viper takes the first file named
`github-mcp-server-config` with another extension it supports, or with none,
and reads it as JSON; the configuration is empty, and so holds no value, when
there is no such file or when it cannot be read or decoded, and nothing is
logged when there is no such file; the file taken in the second directory is
never `github-mcp-server-config.json`. -/
theorem malformed_file_is_absent (L : GoLib) (dirA dirB : WorkDir) (text : RawString)
    (hfile : dirA configFileName = .content text)
    (hmalformed : L.jsonUnmarshal text = none)
    (habsent : dirB configFileName = .notFound)
    (hsilent : ∀ key, configSilent L (TranslationHelper L dirB).1.v.config
      (stringsToLower L (normalizedKey L key)) = true) :
    (∀ calls : List Call,
      (TranslationHelper L dirA).1.results L calls =
        (TranslationHelper L dirB).1.results L calls) ∧
    (TranslationHelper L dirA).1.v.config = [] ∧
    (TranslationHelper L dirA).2 = ["Could not read JSON config"] ∧
    (∀ dir : WorkDir,
      (∀ name text2, Viper.searchInPath dir = some name → dir name = .content text2 →
        L.jsonUnmarshal text2 = none) →
      (TranslationHelper L dir).1.v.config = [] ∧
        ∀ lk, configSilent L (TranslationHelper L dir).1.v.config lk = true) ∧
    (∀ dir : WorkDir, Viper.searchInPath dir = none → (TranslationHelper L dir).2 = []) ∧
    (∀ name, Viper.searchInPath dirB = some name → name ≠ configFileName) := by
  have hfound := searchInPath_json dirA (by rw [hfile]; exact ConfigFile.noConfusion)
  have hempty : (TranslationHelper L dirA).1.v.config = [] := by
    apply helper_config_empty
    intro name text2 h1 h2
    rw [hfound] at h1
    cases h1
    rw [hfile] at h2
    cases h2
    exact hmalformed
  refine ⟨?_, hempty, helper_log_malformed L dirA text hfile hmalformed, ?_,
    helper_log_absent L,
    fun name h e => searchInPath_exists dirB name h (e ▸ habsent)⟩
  · intro calls
    apply results_of_silent
    · rw [helper_cache_empty, helper_cache_empty]
    · rw [helper_defaults_empty, helper_defaults_empty]
    · intro key
      rw [hempty]
      exact silent_nil L _
    · exact hsilent
  · intro dir h
    have he := helper_config_empty L dir h
    refine ⟨he, fun lk => ?_⟩
    rw [he]
    exact silent_nil L lk

/-- C8: `DumpTranslationKeyMap` returns an error exactly when `os.Create` fails, or
the map cannot be serialized (which never happens for a map of strings), or
the write of the serialized data fails, and returns `nil` otherwise; the
finalize function ends the process exactly when the dump returns an error;
the resolution function always returns a value and a next state. -/
theorem finalize_fails_iff_dump_fails (os : FileSystem) (r : Resolver)
    (m : Option (List (RawString × RawString))) (L : GoLib) (env : Env) (key : GoString)
    (d : RawString) :
    ((∃ err, DumpTranslationKeyMap os m = .error err) ↔
      (os.createError ≠ none ∨ (∃ err, jsonMarshalIndent m = .error err) ∨
        ∃ data, jsonMarshalIndent m = .ok data ∧ os.writeError data ≠ none)) ∧
    (∀ err, jsonMarshalIndent m ≠ .error err) ∧
    ((∃ written, DumpTranslationKeyMap os m = .ok written) ↔
      ¬ ∃ err, DumpTranslationKeyMap os m = .error err) ∧
    ((∃ message, r.finalize os = .exited message) ↔
      ∃ err, DumpTranslationKeyMap os r.cache = .error err) ∧
    ((∃ written, r.finalize os = .returned written) ↔
      ∃ written, DumpTranslationKeyMap os r.cache = .ok written) ∧
    (∃ value next, r.resolve L env key d = (value, next)) := by
  have hmarshal : ∃ data, jsonMarshalIndent m = .ok data := by
    unfold jsonMarshalIndent
    cases m with
    | none => exact ⟨_, rfl⟩
    | some m =>
      simp only
      split
      · exact ⟨_, rfl⟩
      · exact ⟨_, rfl⟩
  obtain ⟨data, hdata⟩ := hmarshal
  refine ⟨?_, ?_, ?_, ?_, ?_, ⟨_, _, rfl⟩⟩
  · unfold DumpTranslationKeyMap
    rw [hdata]
    cases hc : os.createError with
    | some e => simp
    | none =>
      cases hw : os.writeError data with
      | some e => simp [hw]
      | none => simp [hw]
  · intro err herr
    rw [hdata] at herr
    exact Except.noConfusion herr
  · cases hdump : DumpTranslationKeyMap os m with
    | error e => simp
    | ok w => simp
  · unfold Resolver.finalize
    cases hdump : DumpTranslationKeyMap os r.cache with
    | error e => simp
    | ok w => simp
  · unfold Resolver.finalize
    cases hdump : DumpTranslationKeyMap os r.cache with
    | error e => simp
    | ok w => simp

/-! ## The dump read back -/

set_option maxRecDepth 100000 in
theorem hex4_of_byte : ∀ n, n < 256 →
    hex4 '0' '0' (hexDigit (n / 16)) (hexDigit (n % 16)) = some n := by
  decide

theorem parse_escaped_byte (c : Char) (hc : c.toNat < 256) (X : GoString) :
    parseStringBody 0
        ('\\' :: 'u' :: '0' :: '0' :: hexDigit (c.toNat / 16) :: hexDigit (c.toNat % 16) :: X) =
      (parseStringBody 0 X).map fun p => (c :: p.1, p.2) := by
  have hdec : decodeEscape ('u' :: '0' :: '0' :: hexDigit (c.toNat / 16) ::
      hexDigit (c.toNat % 16) :: X) = some (c, 5) := by
    have hrange : ¬ (0xD800 ≤ c.toNat ∧ c.toNat ≤ 0xDFFF) := by omega
    simp only [decodeEscape, if_true, decodeUnicodeEscape, hex4_of_byte c.toNat hc, hrange,
      if_false, Char.ofNat_toNat]
  have h1 : ('\\' : Char) ≠ '"' := by decide
  simp only [parseStringBody, h1, if_false, if_true, hdec]

theorem parse_encoded_rune (c : Char) (X : GoString) :
    parseStringBody 0 (encodeRune c ++ X) =
      (parseStringBody 0 X).map fun p => (c :: p.1, p.2) := by
  unfold encodeRune
  split
  · rename_i h; subst h; rfl
  split
  · rename_i h; subst h; rfl
  split
  · rename_i h; subst h; rfl
  split
  · rename_i h; subst h; rfl
  split
  · rename_i h; subst h; rfl
  split
  · rename_i h; subst h; rfl
  split
  · rename_i h; subst h; rfl
  split
  · rename_i h
    have hc : c.toNat < 256 := by
      rcases h with h | h | h | h
      · omega
      · subst h; decide
      · subst h; decide
      · subst h; decide
    exact parse_escaped_byte c hc X
  split
  · rename_i h
    rcases h with h | h <;> subst h <;> rfl
  · rename_i h1 h2 h3 h4 h5 h6 h7 h8 h9
    have hlt : ¬ c.toNat < 0x20 := fun h => h8 (Or.inl h)
    simp only [List.singleton_append, parseStringBody, h1, h2, hlt, if_false]
    rfl

theorem runesOf_rawOf (s : GoString) : runesOf (rawOf s) = s := by
  induction s with
  | nil => rfl
  | cons c rest ih =>
    simp only [rawOf, runesOf, List.map_cons, StringPart.toRune] at ih ⊢
    rw [ih]

theorem validUTF8_rawOf (s : GoString) : validUTF8 (rawOf s) = true := by
  induction s with
  | nil => rfl
  | cons c rest ih =>
    simp only [rawOf, validUTF8, List.map_cons, List.all_cons, StringPart.isRune,
      Bool.true_and] at ih ⊢
    exact ih

theorem rawOf_runesOf (s : RawString) (hs : validUTF8 s = true) : rawOf (runesOf s) = s := by
  induction s with
  | nil => rfl
  | cons p rest ih =>
    cases p with
    | invalid b => simp [validUTF8, StringPart.isRune] at hs
    | rune c =>
      simp only [validUTF8, List.all_cons, StringPart.isRune, Bool.true_and] at hs
      have ih' := ih hs
      simp only [rawOf, runesOf, List.map_cons, StringPart.toRune] at ih' ⊢
      rw [ih']

theorem validUTF8_tail (p : StringPart) (rest : RawString) (hs : validUTF8 (p :: rest) = true) :
    validUTF8 rest = true := by
  simp only [validUTF8, List.all_cons, Bool.and_eq_true] at hs ⊢
  exact hs.2

theorem parse_encoded_body (s : RawString) (hs : validUTF8 s = true) (tail : GoString) :
    parseStringBody 0 (s.flatMap encodePart ++ '"' :: tail) = some (runesOf s, tail) := by
  induction s with
  | nil => rfl
  | cons p rest ih =>
    cases p with
    | invalid b => simp [validUTF8, StringPart.isRune] at hs
    | rune c =>
      rw [List.flatMap_cons, List.append_assoc]
      simp only [encodePart]
      rw [parse_encoded_rune, ih (validUTF8_tail _ _ hs)]
      rfl

theorem parseString_encodeString (s : RawString) (hs : validUTF8 s = true) (tail : GoString) :
    parseString (encodeString s ++ tail) = some (runesOf s, tail) := by
  simp only [encodeString, List.cons_append, List.append_assoc, List.singleton_append,
    parseString, if_true]
  exact parse_encoded_body s hs tail

theorem skipWs_of_not_ws (c : Char) (X : GoString) (h : isWs c = false) :
    skipWs (c :: X) = c :: X := by
  simp only [skipWs, h]
  rfl

theorem encodeMember_eq (kv : RawString × RawString) (tail : GoString) :
    encodeMember kv ++ tail =
      encodeString kv.1 ++ (':' :: ' ' :: (encodeString kv.2 ++ tail)) := by
  simp only [encodeMember, List.append_assoc, List.cons_append]

theorem encodeString_head (s : RawString) (tail : GoString) :
    encodeString s ++ tail = '"' :: (s.flatMap encodePart ++ '"' :: tail) := by
  simp only [encodeString, List.cons_append, List.append_assoc, List.singleton_append,
    List.nil_append]

/-- Reading one member, up to what follows its value. -/
theorem parse_member_step (fuel : Nat) (kv : RawString × RawString) (tail : GoString)
    (acc : List (GoString × Value)) (pre : GoString)
    (hkey : validUTF8 kv.1 = true) (hval : validUTF8 kv.2 = true)
    (hpre : skipWs (pre ++ (encodeMember kv ++ tail)) = encodeMember kv ++ tail) :
    parseMembers (fuel + 2) (pre ++ (encodeMember kv ++ tail)) acc =
      match skipWs tail with
      | [] => none
      | c2 :: rest =>
        if c2 = ',' then parseMembers (fuel + 1) rest (mapSet acc (runesOf kv.1) (.str kv.2))
        else if c2 = '\x7d' then some (.obj (mapSet acc (runesOf kv.1) (.str kv.2)), rest)
        else none := by
  have hvalue : parseValue (fuel + 1) (' ' :: (encodeString kv.2 ++ tail)) =
      some (.str kv.2, tail) := by
    have hws : skipWs (' ' :: (encodeString kv.2 ++ tail)) = encodeString kv.2 ++ tail := by
      rw [encodeString_head]
      simp only [skipWs, isWs]
      rfl
    have h1 : ('"' : Char) ≠ '\x7b' := by decide
    have h2 : ('"' : Char) ≠ '[' := by decide
    simp only [parseValue, hws]
    rw [encodeString_head]
    simp only [h1, h2, if_false, if_true, parse_encoded_body _ hval, Option.map,
      rawOf_runesOf _ hval]
  have hcolon : skipWs (':' :: ' ' :: (encodeString kv.2 ++ tail)) =
      ':' :: ' ' :: (encodeString kv.2 ++ tail) := skipWs_of_not_ws _ _ (by decide)
  conv_lhs => rw [parseMembers]
  simp only [hpre]
  rw [encodeMember_eq, parseString_encodeString _ hkey]
  simp only [hcolon, if_true, hvalue]

theorem encodeMember_head (kv : RawString × RawString) :
    ∃ X, ∀ tail, encodeMember kv ++ tail = '"' :: (X ++ tail) := by
  refine ⟨kv.1.flatMap encodePart ++ '"' :: ':' :: ' ' :: encodeString kv.2, ?_⟩
  intro tail
  simp only [encodeMember, encodeString, List.cons_append, List.append_assoc,
    List.singleton_append, List.nil_append]

theorem skipWs_member (kv : RawString × RawString) (tail pre : GoString)
    (hpre : pre = [] ∨ pre = ['\n', ' ', ' ']) :
    skipWs (pre ++ (encodeMember kv ++ tail)) = encodeMember kv ++ tail := by
  obtain ⟨X, hX⟩ := encodeMember_head kv
  rw [hX tail]
  rcases hpre with rfl | rfl
  · exact skipWs_of_not_ws _ _ (by decide)
  · simp only [List.cons_append, List.nil_append, skipWs, isWs]
    rfl

/-- Reading the members `json.MarshalIndent` has written. -/
theorem parse_encoded_members (entries : List (RawString × RawString)) :
    ∀ (fuel : Nat) (acc : List (GoString × Value)) (pre tail : GoString),
      entries ≠ [] → entries.length + 1 ≤ fuel →
      (pre = [] ∨ pre = ['\n', ' ', ' ']) →
      (∀ e ∈ entries, validUTF8 e.1 = true ∧ validUTF8 e.2 = true) →
      (mapKeys (entries.map asMember)).Nodup →
      (∀ k ∈ mapKeys (entries.map asMember), k ∉ mapKeys acc) →
      parseMembers fuel (pre ++ (encodeMembers entries ++ '\n' :: '\x7d' :: tail)) acc =
        some (.obj (acc ++ entries.map asMember), tail) := by
  induction entries with
  | nil => intro _ _ _ _ h; exact absurd rfl h
  | cons kv rest ih =>
    intro fuel acc pre tail _ hfuel hpre hvalid hnodup hacc
    obtain ⟨fuel, rfl⟩ : ∃ f, fuel = f + 2 := ⟨fuel - 2, by simp at hfuel; omega⟩
    have hkv := hvalid kv (List.mem_cons_self _ _)
    have hk : runesOf kv.1 ∉ mapKeys acc := hacc _ (List.mem_cons_self _ _)
    have hset := mapSet_of_not_mem acc (runesOf kv.1) (Value.str kv.2) hk
    cases rest with
    | nil =>
      have henc : encodeMembers [kv] ++ '\n' :: '\x7d' :: tail =
          encodeMember kv ++ ('\n' :: '\x7d' :: tail) := rfl
      rw [henc, parse_member_step fuel kv _ acc pre hkv.1 hkv.2 (skipWs_member kv _ pre hpre)]
      have hws : skipWs ('\n' :: '\x7d' :: tail) = '\x7d' :: tail := by
        simp only [skipWs, isWs]
        rfl
      have h1 : ('\x7d' : Char) ≠ ',' := by decide
      simp only [hws, h1, if_false, if_true, hset, List.map_cons, List.map_nil, asMember]
    | cons kv2 rest2 =>
      have henc : encodeMembers (kv :: kv2 :: rest2) ++ '\n' :: '\x7d' :: tail =
          encodeMember kv ++ (',' :: (['\n', ' ', ' '] ++
            (encodeMembers (kv2 :: rest2) ++ '\n' :: '\x7d' :: tail))) := by
        simp only [encodeMembers, List.append_assoc, List.cons_append, List.nil_append]
      rw [henc, parse_member_step fuel kv _ acc pre hkv.1 hkv.2 (skipWs_member kv _ pre hpre)]
      have hws : ∀ X : GoString, skipWs (',' :: X) = ',' :: X :=
        fun X => skipWs_of_not_ws _ _ (by decide)
      simp only [hws, if_true, hset]
      have hnodup' : (mapKeys ((kv2 :: rest2).map asMember)).Nodup :=
        (List.nodup_cons.1 hnodup).2
      have hnotin : runesOf kv.1 ∉ mapKeys ((kv2 :: rest2).map asMember) :=
        (List.nodup_cons.1 hnodup).1
      rw [ih (fuel + 1) (acc ++ [(runesOf kv.1, Value.str kv.2)]) ['\n', ' ', ' '] tail
        (List.cons_ne_nil _ _) (by simp at hfuel ⊢; omega) (Or.inr rfl)
        (fun e he => hvalid e (List.mem_cons_of_mem _ he)) hnodup' ?_]
      · simp only [List.map_cons, List.append_assoc, List.singleton_append, asMember]
      · intro k hk hmem
        rw [mapKeys_append, List.mem_append] at hmem
        rcases hmem with hmem | hmem
        · exact hacc k (List.mem_cons_of_mem _ hk) hmem
        · have : k = runesOf kv.1 := by simpa [mapKeys] using hmem
          exact hnotin (this ▸ hk)

theorem encodeMembers_length (entries : List (RawString × RawString)) :
    entries.length ≤ (encodeMembers entries).length := by
  induction entries with
  | nil => exact Nat.le_refl _
  | cons kv rest ih =>
    obtain ⟨X, hX⟩ := encodeMember_head kv
    cases rest with
    | nil =>
      have h := hX []
      simp only [List.append_nil] at h
      simp only [encodeMembers, h, List.length_cons, List.length_nil]
      omega
    | cons kv2 rest2 =>
      have h : encodeMembers (kv :: kv2 :: rest2) =
          '"' :: (X ++ ',' :: '\n' :: ' ' :: ' ' :: encodeMembers (kv2 :: rest2)) := by
        simp only [encodeMembers]
        exact hX _
      rw [h]
      simp only [List.length_cons, List.length_append] at ih ⊢
      omega

/-- The text `json.MarshalIndent` writes for the entries reads back as the object
of these entries. -/
theorem parseJSON_encoded (entries : List (RawString × RawString)) (hne : entries ≠ [])
    (hvalid : ∀ e ∈ entries, validUTF8 e.1 = true ∧ validUTF8 e.2 = true)
    (hnodup : (mapKeys (entries.map asMember)).Nodup) :
    parseJSON ('\x7b' :: '\n' :: ' ' :: ' ' :: (encodeMembers entries ++ ['\n', '\x7d'])) =
      some (.obj (entries.map asMember)) := by
  have hlen := encodeMembers_length entries
  obtain ⟨kv, rest, rfl⟩ := List.exists_cons_of_ne_nil hne
  obtain ⟨X, hX⟩ : ∃ X, encodeMembers (kv :: rest) ++ ['\n', '\x7d'] = '"' :: X := by
    obtain ⟨Y, hY⟩ := encodeMember_head kv
    cases rest with
    | nil => exact ⟨_, hY _⟩
    | cons kv2 rest2 =>
      refine ⟨Y ++ (',' :: '\n' :: ' ' :: ' ' :: encodeMembers (kv2 :: rest2) ++
        ['\n', '\x7d']), ?_⟩
      simp only [encodeMembers, List.append_assoc]
      exact hY _
  have hmembers := parse_encoded_members (kv :: rest)
    (('\x7b' :: '\n' :: ' ' :: ' ' :: (encodeMembers (kv :: rest) ++ ['\n', '\x7d'])).length)
    [] [] [] (List.cons_ne_nil _ _)
    (by simp only [List.length_cons, List.length_append, List.length_nil] at hlen ⊢; omega)
    (Or.inl rfl) hvalid hnodup (fun k _ h => (List.not_mem_nil _ h))
  simp only [List.nil_append] at hmembers
  have h1 : ('"' : Char) ≠ '\x7d' := by decide
  have hws1 : ∀ Y : GoString, skipWs ('\x7b' :: Y) = '\x7b' :: Y :=
    fun Y => skipWs_of_not_ws _ _ (by decide)
  have hws2 : skipWs ('\n' :: ' ' :: ' ' :: (encodeMembers (kv :: rest) ++ ['\n', '\x7d'])) =
      '"' :: X := by
    rw [hX]
    simp only [skipWs, isWs]
    rfl
  unfold parseJSON
  conv_lhs => rw [parseValue]
  simp only [hws1, if_true, hws2, h1, if_false]
  rw [← hX, hmembers]
  rfl

theorem mapGet_perm {α : Type} (m1 m2 : List (GoString × α)) (h : m1.Perm m2)
    (hnodup : (mapKeys m1).Nodup) (k : GoString) : mapGet m1 k = mapGet m2 k := by
  induction h with
  | nil => rfl
  | cons e _ ih =>
    obtain ⟨k', v'⟩ := e
    rw [mapKeys_cons, List.nodup_cons] at hnodup
    simp only [mapGet, ih hnodup.2]
  | swap e1 e2 l =>
    obtain ⟨k1, v1⟩ := e1
    obtain ⟨k2, v2⟩ := e2
    rw [mapKeys_cons, mapKeys_cons, List.nodup_cons] at hnodup
    have hne : k2 ≠ k1 := by
      intro e
      apply hnodup.1
      rw [e]
      exact List.mem_cons_self _ _
    simp only [mapGet]
    by_cases h1 : k1 = k
    · have h2 : ¬ k2 = k := fun e => hne (e.trans h1.symm)
      simp only [h1, h2, if_true, if_false]
    · simp only [h1, if_false]
  | trans p1 _ ih1 ih2 =>
    have hn2 := (List.Perm.nodup_iff (List.Perm.map Prod.fst p1)).1 hnodup
    exact (ih1 hnodup).trans (ih2 hn2)

theorem sortedEntries_perm (m : List (RawString × RawString)) : (sortedEntries m).Perm m :=
  List.perm_insertionSort _ m

/-- The names under which the entries of a map with distinct valid keys are read
back are distinct. -/
theorem asMember_nodup (m : List (RawString × RawString))
    (hvalid : ∀ e ∈ m, validUTF8 e.1 = true ∧ validUTF8 e.2 = true)
    (hm : (m.map Prod.fst).Nodup) : (mapKeys (m.map asMember)).Nodup := by
  have h : mapKeys (m.map asMember) = (m.map Prod.fst).map runesOf := by
    simp only [mapKeys, List.map_map]
    rfl
  rw [h]
  apply List.Nodup.map_on _ hm
  intro a ha b hb hab
  obtain ⟨ea, hea, rfl⟩ := List.mem_map.1 ha
  obtain ⟨eb, heb, rfl⟩ := List.mem_map.1 hb
  rw [← rawOf_runesOf _ (hvalid ea hea).1, ← rawOf_runesOf _ (hvalid eb heb).1, hab]

theorem dump_reads_back (os : FileSystem) (m : List (RawString × RawString))
    (written : GoString)
    (hvalid : ∀ e ∈ m, validUTF8 e.1 = true ∧ validUTF8 e.2 = true)
    (hm : (m.map Prod.fst).Nodup)
    (hdump : DumpTranslationKeyMap os (some m) = .ok written) :
    ∃ doc, parseJSON written = some (.obj doc) ∧ doc.Perm (m.map asMember) ∧
      ∀ k, mapGet doc k = mapGet (m.map asMember) k := by
  have hperm := sortedEntries_perm m
  have hvalid_sorted : ∀ e ∈ sortedEntries m, validUTF8 e.1 = true ∧ validUTF8 e.2 = true :=
    fun e he => hvalid e (hperm.subset he)
  have hdoc_perm : ((sortedEntries m).map asMember).Perm (m.map asMember) :=
    List.Perm.map _ hperm
  have hsorted_nodup : (mapKeys ((sortedEntries m).map asMember)).Nodup :=
    (List.Perm.nodup_iff (List.Perm.map Prod.fst hdoc_perm)).2 (asMember_nodup m hvalid hm)
  have htext : written = match sortedEntries m with
      | [] => ['\x7b', '\x7d']
      | entries => '\x7b' :: '\n' :: ' ' :: ' ' :: (encodeMembers entries ++ ['\n', '\x7d']) := by
    unfold DumpTranslationKeyMap jsonMarshalIndent at hdump
    cases hc : os.createError with
    | some e => simp [hc] at hdump
    | none =>
      cases hs : sortedEntries m with
      | nil =>
        simp only [hc, hs] at hdump
        cases hw : os.writeError ['\x7b', '\x7d'] with
        | some e => simp [hw] at hdump
        | none =>
          simp only [hw] at hdump
          exact (Except.ok.inj hdump).symm
      | cons kv rest =>
        simp only [hc, hs] at hdump
        cases hw : os.writeError
            ('\x7b' :: '\n' :: ' ' :: ' ' :: (encodeMembers (kv :: rest) ++ ['\n', '\x7d'])) with
        | some e => simp [hw] at hdump
        | none =>
          simp only [hw] at hdump
          exact (Except.ok.inj hdump).symm
  refine ⟨(sortedEntries m).map asMember, ?_, hdoc_perm,
    fun k => mapGet_perm _ _ hdoc_perm hsorted_nodup k⟩
  rw [htext]
  cases hs : sortedEntries m with
  | nil => rfl
  | cons kv rest =>
    have := parseJSON_encoded (kv :: rest) (List.cons_ne_nil _ _) (hs ▸ hvalid_sorted)
      (hs ▸ hsorted_nodup)
    simpa using this

theorem mapGet_map_str (m : List (GoString × RawString)) (k : GoString) :
    mapGet (m.map fun kv => (kv.1, Value.str kv.2)) k = (mapGet m k).map Value.str := by
  induction m with
  | nil => rfl
  | cons e rest ih =>
    obtain ⟨k', v'⟩ := e
    by_cases h : k' = k
    · simp only [List.map_cons, mapGet, h, if_true, Option.map]
    · simp only [List.map_cons, mapGet, h, if_false, ih]

/-- The cache of a resolver, as the map handed to the dump, is read back under
its own keys. -/
theorem cache_asMember (c : List (GoString × RawString)) :
    (c.map fun kv => (rawOf kv.1, kv.2)).map asMember =
      c.map fun kv => (kv.1, Value.str kv.2) := by
  induction c with
  | nil => rfl
  | cons e rest ih =>
    simp only [List.map_cons, asMember, runesOf_rawOf, List.cons.injEq, true_and] at ih ⊢
    exact ih

theorem cache_keys_nodup (c : List (GoString × RawString)) (h : (mapKeys c).Nodup) :
    ((c.map fun kv => (rawOf kv.1, kv.2)).map Prod.fst).Nodup := by
  have h1 : (c.map fun kv => (rawOf kv.1, kv.2)).map Prod.fst = (mapKeys c).map rawOf := by
    simp only [mapKeys, List.map_map]
    rfl
  rw [h1]
  apply List.Nodup.map_on _ h
  intro a _ b _ hab
  rw [← runesOf_rawOf a, ← runesOf_rawOf b, hab]

/-- C6, amended: for every map that is not `nil` and whose keys and values are
valid UTF-8 (its keys pairwise distinct, as in a Go map), the text that
`DumpTranslationKeyMap` has written when it returns `nil` reads as a JSON
object whose members are the entries of the map, each value a string: the
members are a rearrangement of the entries, and looking a name up in the
object gives what looking it up in the entries gives. The cache of a resolver
built by `TranslationHelper` is never `nil` and its keys are valid UTF-8 and
distinct after every sequence of calls; so when its values are valid UTF-8,
the text its finalize function has written when it returns reads as the
cache. -/
theorem dump_round_trip (os : FileSystem) (m : List (RawString × RawString))
    (written : GoString)
    (hvalid : ∀ e ∈ m, validUTF8 e.1 = true ∧ validUTF8 e.2 = true)
    (hm : (m.map Prod.fst).Nodup)
    (hdump : DumpTranslationKeyMap os (some m) = .ok written) :
    (∃ doc, parseJSON written = some (.obj doc) ∧ doc.Perm (m.map asMember) ∧
      ∀ k, mapGet doc k = mapGet (m.map asMember) k) ∧
    ∀ (L : GoLib) (dir : WorkDir) (calls : List Call) (os2 : FileSystem) (text : GoString),
      (∀ e ∈ ((TranslationHelper L dir).1.run L calls).translationKeyMap,
        validUTF8 e.2 = true) →
      ((TranslationHelper L dir).1.run L calls).finalize os2 = .returned text →
      ∃ doc, parseJSON text = some (.obj doc) ∧
        doc.Perm (((TranslationHelper L dir).1.run L calls).translationKeyMap.map
          fun kv => (kv.1, Value.str kv.2)) ∧
        ∀ k, mapGet doc k =
          (mapGet ((TranslationHelper L dir).1.run L calls).translationKeyMap k).map
            Value.str := by
  refine ⟨dump_reads_back os m written hvalid hm hdump, ?_⟩
  intro L dir calls os2 text hvalues hfin
  have hnodup : (mapKeys ((TranslationHelper L dir).1.run L calls).translationKeyMap).Nodup := by
    apply run_nodup
    rw [helper_cache_empty]
    exact List.nodup_nil
  have hdump2 : DumpTranslationKeyMap os2
      (some (((TranslationHelper L dir).1.run L calls).translationKeyMap.map
        fun kv => (rawOf kv.1, kv.2))) = .ok text := by
    unfold Resolver.finalize Resolver.cache at hfin
    cases hd : DumpTranslationKeyMap os2
        (some (((TranslationHelper L dir).1.run L calls).translationKeyMap.map
          fun kv => (rawOf kv.1, kv.2))) with
    | error e => simp [hd] at hfin
    | ok w =>
      simp only [hd] at hfin
      rw [Finalized.returned.inj hfin]
  obtain ⟨doc, hparse, hperm, hlookup⟩ := dump_reads_back os2 _ text
    (by
      intro e he
      obtain ⟨kv, hkv, rfl⟩ := List.mem_map.1 he
      exact ⟨validUTF8_rawOf _, hvalues kv hkv⟩)
    (cache_keys_nodup _ hnodup) hdump2
  rw [cache_asMember] at hperm hlookup
  exact ⟨doc, hparse, hperm, fun k => by rw [hlookup k, mapGet_map_str]⟩

/-! ## Worked examples -/

theorem asciiLib_upper_above_ascii (c : Char) (hc : isASCII c = false) :
    asciiLib.upper c ≠ '-' ∧ ¬ ('a' ≤ asciiLib.upper c ∧ asciiLib.upper c ≤ 'z') := by
  have hgt : ¬ c.toNat ≤ 0x7F := by simpa [isASCII] using hc
  refine ⟨?_, ?_⟩
  · intro e
    have e' : c = '-' := e
    apply hgt
    rw [e']
    decide
  · intro h
    have h2 : c.toNat ≤ 122 := toNat_le_of_le _ _ h.2
    omega

/-- C1 as stated fails, twice. With `GITHUB_MCP_FOO_BAR` set to the empty string on
a fresh resolver without a file, `resolve("foo-bar", "fallback")` returns
`"fallback"`, not the variable's value: viper takes an empty variable for an
unset one. With the key `"\u212A"` (the Kelvin sign, which normalizes to itself)
and `GITHUB_MCP_\u212A` set to `"override"`, the call returns `"fallback"`: viper
lower-cases the key to `k` and looks up `GITHUB_MCP_K`; the round trip does not
give this key back. -/
theorem env_override_counterexample :
    (envOf [("GITHUB_MCP_FOO_BAR".toList, [])] (envVarName asciiLib "foo-bar".toList) = some [] ∧
      mapGet (TranslationHelper asciiLib (dirOf [])).1.translationKeyMap
        (normalizedKey asciiLib "foo-bar".toList) = none ∧
      ((TranslationHelper asciiLib (dirOf [])).1.resolve asciiLib
        (envOf [("GITHUB_MCP_FOO_BAR".toList, [])])
        "foo-bar".toList (rawOf "fallback".toList)).1 = rawOf "fallback".toList) ∧
    (envOf [("GITHUB_MCP_\u212A".toList, rawOf "override".toList)]
        (envVarName kelvinLib "\u212A".toList) = some (rawOf "override".toList) ∧
      mapGet (TranslationHelper kelvinLib (dirOf [])).1.translationKeyMap
        (normalizedKey kelvinLib "\u212A".toList) = none ∧
      ((TranslationHelper kelvinLib (dirOf [])).1.resolve kelvinLib
        (envOf [("GITHUB_MCP_\u212A".toList, rawOf "override".toList)])
        "\u212A".toList (rawOf "fallback".toList)).1 = rawOf "fallback".toList ∧
      replaceHyphens (stringsToUpper kelvinLib (stringsToLower kelvinLib
        (normalizedKey kelvinLib "\u212A".toList))) ≠ normalizedKey kelvinLib "\u212A".toList) := by
  decide

/-- C1, the example of the specification: with `GITHUB_MCP_FOO_BAR=override`,
`resolve("foo-bar", "fallback")` returns `"override"`. And beyond ASCII: with
`GITHUB_MCP_CAF\u00C9=x`, `resolve("caf\u00E9", "fallback")` returns `"x"`. -/
theorem env_overrides_witness :
    (replaceHyphens (stringsToUpper asciiLib (stringsToLower asciiLib
        (normalizedKey asciiLib "foo-bar".toList))) = normalizedKey asciiLib "foo-bar".toList ∧
      mapGet (TranslationHelper asciiLib (dirOf [])).1.translationKeyMap
        (normalizedKey asciiLib "foo-bar".toList) = none ∧
      envOf [("GITHUB_MCP_FOO_BAR".toList, rawOf "override".toList)]
        (envVarName asciiLib "foo-bar".toList) = some (rawOf "override".toList) ∧
      rawOf "override".toList ≠ [] ∧
      ((TranslationHelper asciiLib (dirOf [])).1.resolve asciiLib
        (envOf [("GITHUB_MCP_FOO_BAR".toList, rawOf "override".toList)])
        "foo-bar".toList (rawOf "fallback".toList)).1 = rawOf "override".toList) ∧
    (normalizedKey accentLib "caf\u00E9".toList = "CAF\u00C9".toList ∧
      ((TranslationHelper accentLib (dirOf [])).1.resolve accentLib
        (envOf [("GITHUB_MCP_CAF\u00C9".toList, rawOf "x".toList)])
        "caf\u00E9".toList (rawOf "fallback".toList)).1 = rawOf "x".toList) :=
  ⟨⟨by decide, by decide, by decide, by decide,
    (env_overrides asciiLib (envOf [("GITHUB_MCP_FOO_BAR".toList, rawOf "override".toList)])
      (TranslationHelper asciiLib (dirOf [])).1 "foo-bar".toList (rawOf "fallback".toList)
      (rawOf "override".toList) (by decide) (by decide) (by decide) (by decide)).1⟩,
    by decide,
    (env_overrides accentLib (envOf [("GITHUB_MCP_CAF\u00C9".toList, rawOf "x".toList)])
      (TranslationHelper accentLib (dirOf [])).1 "caf\u00E9".toList (rawOf "fallback".toList)
      (rawOf "x".toList) (by decide) (by decide) (by decide) (by decide)).1⟩

/-- C4 at the keys `"My-Key"` and `"MY_KEY"`: on a fresh resolver the two calls
return the same value and leave one entry, under `MY_KEY`. -/
theorem normalization_shares_entry_witness :
    differOnlyInCaseAndSeparator "My-Key".toList "MY_KEY".toList = true ∧
    normalizedKey asciiLib "My-Key".toList = "MY_KEY".toList ∧
    ((((TranslationHelper asciiLib (dirOf [])).1.resolve asciiLib (envOf [])
        "My-Key".toList (rawOf "a".toList)).2.resolve asciiLib (envOf [])
        "MY_KEY".toList (rawOf "b".toList)).1 =
      ((TranslationHelper asciiLib (dirOf [])).1.resolve asciiLib (envOf [])
        "My-Key".toList (rawOf "a".toList)).1 ∧
     (((TranslationHelper asciiLib (dirOf [])).1.resolve asciiLib (envOf [])
        "My-Key".toList (rawOf "a".toList)).2.resolve asciiLib (envOf [])
        "MY_KEY".toList (rawOf "b".toList)).2.translationKeyMap =
      [(normalizedKey asciiLib "My-Key".toList,
        ((TranslationHelper asciiLib (dirOf [])).1.resolve asciiLib (envOf [])
          "My-Key".toList (rawOf "a".toList)).1)]) :=
  ⟨by decide, by decide,
    (normalization_shares_entry asciiLib (dirOf []) (TranslationHelper asciiLib (dirOf [])).1
      (envOf []) (envOf []) "My-Key".toList "MY_KEY".toList (rawOf "a".toList)
      (rawOf "b".toList) (by decide)).2.2.2⟩

/-- C10 at the calls `resolve("My-Key", "a")`, `resolve("other", "b")`,
`resolve("MY_KEY", "c")` on a fresh resolver: the cache ends with the two
keys `MY_KEY` and `OTHER`, which hold no `-` and no lower-case letter. -/
theorem cache_characterisation_witness :
    (∀ c, isASCII c = false →
      asciiLib.upper c ≠ '-' ∧ ¬ ('a' ≤ asciiLib.upper c ∧ asciiLib.upper c ≤ 'z')) ∧
    mapKeys ((TranslationHelper asciiLib (dirOf [])).1.run asciiLib
      [⟨envOf [], "My-Key".toList, rawOf "a".toList⟩,
        ⟨envOf [], "other".toList, rawOf "b".toList⟩,
        ⟨envOf [], "MY_KEY".toList, rawOf "c".toList⟩]).translationKeyMap =
      ["MY_KEY".toList, "OTHER".toList] ∧
    (mapKeys ((TranslationHelper asciiLib (dirOf [])).1.run asciiLib
      [⟨envOf [], "My-Key".toList, rawOf "a".toList⟩,
        ⟨envOf [], "other".toList, rawOf "b".toList⟩,
        ⟨envOf [], "MY_KEY".toList, rawOf "c".toList⟩]).translationKeyMap).Nodup ∧
    (∀ k ∈ mapKeys ((TranslationHelper asciiLib (dirOf [])).1.run asciiLib
      [⟨envOf [], "My-Key".toList, rawOf "a".toList⟩,
        ⟨envOf [], "other".toList, rawOf "b".toList⟩,
        ⟨envOf [], "MY_KEY".toList, rawOf "c".toList⟩]).translationKeyMap,
      ∀ ch ∈ k, ch ≠ '-' ∧ ¬ ('a' ≤ ch ∧ ch ≤ 'z')) :=
  ⟨asciiLib_upper_above_ascii, by decide,
    (cache_characterisation asciiLib (dirOf [])
      [⟨envOf [], "My-Key".toList, rawOf "a".toList⟩,
        ⟨envOf [], "other".toList, rawOf "b".toList⟩,
        ⟨envOf [], "MY_KEY".toList, rawOf "c".toList⟩]).1,
    (cache_characterisation asciiLib (dirOf [])
      [⟨envOf [], "My-Key".toList, rawOf "a".toList⟩,
        ⟨envOf [], "other".toList, rawOf "b".toList⟩,
        ⟨envOf [], "MY_KEY".toList, rawOf "c".toList⟩]).2.2.1 asciiLib_upper_above_ascii⟩

/-- C7 as stated fails. In a directory that holds a `github-mcp-server-config.yaml`
with the text `{"FOO": "from sibling"}`: when `github-mcp-server-config.json`
exists with the text `{not json`, `resolve("foo", "d")` returns `"d"`; when
`github-mcp-server-config.json` does not exist, viper loads the other file and
the call returns `"from sibling"`. -/
theorem malformed_file_counterexample :
    dirOf [(configFileName, .content (rawOf "\x7bnot json".toList)),
      ("github-mcp-server-config.yaml".toList,
        .content (rawOf "\x7b\"FOO\": \"from sibling\"\x7d".toList))] configFileName =
      .content (rawOf "\x7bnot json".toList) ∧
    asciiLib.jsonUnmarshal (rawOf "\x7bnot json".toList) = none ∧
    dirOf [("github-mcp-server-config.yaml".toList,
        .content (rawOf "\x7b\"FOO\": \"from sibling\"\x7d".toList))] configFileName =
      .notFound ∧
    (TranslationHelper asciiLib (dirOf [(configFileName,
        .content (rawOf "\x7bnot json".toList)),
      ("github-mcp-server-config.yaml".toList,
        .content (rawOf "\x7b\"FOO\": \"from sibling\"\x7d".toList))])).1.results asciiLib
      [⟨envOf [], "foo".toList, rawOf "d".toList⟩] = [rawOf "d".toList] ∧
    (TranslationHelper asciiLib (dirOf [("github-mcp-server-config.yaml".toList,
        .content (rawOf "\x7b\"FOO\": \"from sibling\"\x7d".toList))])).1.results asciiLib
      [⟨envOf [], "foo".toList, rawOf "d".toList⟩] = [rawOf "from sibling".toList] :=
  ⟨by decide, rfl, by decide, by decide, by decide⟩

/-- C7 at the text `{not json`, which the decoder rejects, against a directory
without any configuration file, and against a directory that holds only a
`github-mcp-server-config.yaml` with the YAML text `foo: bar`, which is not
JSON either: the calls return the same values. -/
theorem malformed_file_is_absent_witness :
    (asciiLib.jsonUnmarshal (rawOf "\x7bnot json".toList) = none ∧
      ∀ calls : List Call,
        (TranslationHelper asciiLib (dirOf [(configFileName,
          .content (rawOf "\x7bnot json".toList))])).1.results asciiLib calls =
          (TranslationHelper asciiLib (dirOf [])).1.results asciiLib calls) ∧
    (Viper.searchInPath (dirOf [("github-mcp-server-config.yaml".toList,
        .content (rawOf "foo: bar".toList))]) =
        some "github-mcp-server-config.yaml".toList ∧
      ∀ calls : List Call,
        (TranslationHelper asciiLib (dirOf [(configFileName,
          .content (rawOf "\x7bnot json".toList))])).1.results asciiLib calls =
          (TranslationHelper asciiLib (dirOf [("github-mcp-server-config.yaml".toList,
            .content (rawOf "foo: bar".toList))])).1.results asciiLib calls) :=
  ⟨⟨rfl,
    (malformed_file_is_absent asciiLib
      (dirOf [(configFileName, .content (rawOf "\x7bnot json".toList))]) (dirOf [])
      (rawOf "\x7bnot json".toList) (by decide) rfl (by decide)
      (fun key => silent_nil asciiLib _)).1⟩,
    ⟨by decide,
    (malformed_file_is_absent asciiLib
      (dirOf [(configFileName, .content (rawOf "\x7bnot json".toList))])
      (dirOf [("github-mcp-server-config.yaml".toList, .content (rawOf "foo: bar".toList))])
      (rawOf "\x7bnot json".toList) (by decide) rfl (by decide)
      (fun key => silent_nil asciiLib _)).1⟩⟩

/-- C6 as stated fails, twice. (1) With `GITHUB_MCP_K` set to the one byte `0xff`,
which is not valid UTF-8, `resolve("k", "d")` returns that byte and the cache
holds it under `K`; the finalize function writes `{"K": "\ufffd"}`, which
reads as an object that holds U+FFFD under `K`, not the byte of the cache.
(2) For the `nil` map `DumpTranslationKeyMap` returns `nil` and writes `null`,
which reads as `null`, not as an object. -/
theorem dump_round_trip_counterexample :
    (((TranslationHelper asciiLib (dirOf [])).1.resolve asciiLib
        (envOf [("GITHUB_MCP_K".toList, [.invalid 255])]) "k".toList
        (rawOf "d".toList)).2.translationKeyMap = [("K".toList, [.invalid 255])] ∧
      ((TranslationHelper asciiLib (dirOf [])).1.resolve asciiLib
        (envOf [("GITHUB_MCP_K".toList, [.invalid 255])]) "k".toList
        (rawOf "d".toList)).2.finalize ⟨none, fun _ => none⟩ =
        .returned "\x7b\n  \"K\": \"\\ufffd\"\n\x7d".toList ∧
      parseJSON "\x7b\n  \"K\": \"\\ufffd\"\n\x7d".toList =
        some (.obj [("K".toList, .str [.rune '\uFFFD'])]) ∧
      ([.rune '\uFFFD'] : RawString) ≠ [.invalid 255]) ∧
    (DumpTranslationKeyMap ⟨none, fun _ => none⟩ none = .ok "null".toList ∧
      parseJSON "null".toList = some .null) :=
  ⟨⟨by decide, rfl, rfl, by decide⟩, rfl, rfl⟩

/-- C6, the example of the specification: after `resolve("tool-description",
"Does a thing")` on a resolver with no file and an empty environment, the
finalize function writes a text that reads as the object
`{"TOOL_DESCRIPTION": "Does a thing"}`. -/
theorem dump_round_trip_witness :
    ((TranslationHelper asciiLib (dirOf [])).1.resolve asciiLib (envOf [])
      "tool-description".toList (rawOf "Does a thing".toList)).2.cache =
      some [(rawOf "TOOL_DESCRIPTION".toList, rawOf "Does a thing".toList)] ∧
    ((TranslationHelper asciiLib (dirOf [])).1.resolve asciiLib (envOf [])
      "tool-description".toList (rawOf "Does a thing".toList)).2.finalize
        ⟨none, fun _ => none⟩ =
      .returned "\x7b\n  \"TOOL_DESCRIPTION\": \"Does a thing\"\n\x7d".toList ∧
    parseJSON "\x7b\n  \"TOOL_DESCRIPTION\": \"Does a thing\"\n\x7d".toList =
      some (.obj [("TOOL_DESCRIPTION".toList, .str (rawOf "Does a thing".toList))]) ∧
    ∃ doc, parseJSON "\x7b\n  \"TOOL_DESCRIPTION\": \"Does a thing\"\n\x7d".toList =
        some (.obj doc) ∧
      doc.Perm ([(rawOf "TOOL_DESCRIPTION".toList, rawOf "Does a thing".toList)].map
        asMember) ∧
      ∀ k, mapGet doc k =
        mapGet ([(rawOf "TOOL_DESCRIPTION".toList, rawOf "Does a thing".toList)].map
          asMember) k :=
  ⟨by decide, rfl, rfl,
    (dump_round_trip ⟨none, fun _ => none⟩
      [(rawOf "TOOL_DESCRIPTION".toList, rawOf "Does a thing".toList)]
      "\x7b\n  \"TOOL_DESCRIPTION\": \"Does a thing\"\n\x7d".toList (by decide) (by decide)
      rfl).1⟩

end Translations
